import Mathlib

set_option maxRecDepth 100000

/-!
Verification of the audio steganography codec core
(repository Nerggg/Audio-Steganography-LSB, backend/service).

Bytes are modelled as natural numbers below 256 and byte buffers as
lists of naturals.  Strings that the Go code converts to UTF-8 byte
slices (keys, filenames) are modelled directly as byte lists.  All
definitions are transcribed from backend/service/cryptography_service.go
(the v2 stego service) except where a doc comment says the function is
modelled from the spec because its body is absent from the sources.
-/

namespace Stego

/-- Read the byte at index i, returning 0 out of range (Go code always
guards indices, so the default is never observed on the source paths). -/
def byteAt (d : List Nat) (i : Nat) : Nat := d.getD i 0

/-- All entries of the buffer are byte values. -/
def Bytes (d : List Nat) : Prop := ∀ b ∈ d, b < 256

/-- Bit s of a byte, the read the extractor performs. -/
def bitGet (b s : Nat) : Nat := (b >>> s) &&& 1

instance : DecidablePred Bytes := fun d =>
  decidable_of_iff (∀ b ∈ d, b < 256) Iff.rfl

/-- Transcribed from bytesToBits in audio_service.go: MSB-first bit
expansion, eight bits per byte. -/
def bitsOfByte (b : Nat) : List Nat :=
  (List.range 8).map (fun j => (b >>> (7 - j)) &&& 1)

/-- Transcribed from bytesToBits in audio_service.go. -/
def bytesToBits (data : List Nat) : List Nat :=
  data.flatMap bitsOfByte

/-- One output byte of bitsToBytes: each bit equal to 1 sets position
7 - j, exactly as the Go loop ORs 1 <<< (7 - bitIndex). -/
def byteFromBits (bs : List Nat) : Nat :=
  (List.range 8).foldl (fun acc j => if bs.getD j 0 == 1 then acc + (1 <<< (7 - j)) else acc) 0

/-- Transcribed from bitsToBytes in audio_service.go: groups of eight
bits, MSB first, the final byte zero-padded on the right. -/
def bitsToBytes : List Nat → List Nat
  | [] => []
  | b0 :: b1 :: b2 :: b3 :: b4 :: b5 :: b6 :: b7 :: rest =>
      byteFromBits [b0, b1, b2, b3, b4, b5, b6, b7] :: bitsToBytes rest
  | bs => [byteFromBits bs]

/-- Transcribed from cryptographyService.VigenereCipher: repeating-key
XOR; an empty key returns the data unchanged.  The key is the UTF-8
byte list of the Go key string. -/
def vigenereCipher (data key : List Nat) : List Nat :=
  if key.length = 0 then data
  else data.mapIdx (fun i b => b ^^^ key.getD (i % key.length) 0)

/-- One step of the deterministic digest used by the modelled helpers. -/
def digestStep (h b : Nat) : Nat := (h * 131 + b) % 4294967296

/-- Modelled from the spec: calculateChecksum is called by the stego
service but its body is absent from the sources.  Spec section 3 only
requires the first 4 bytes of a fixed deterministic content digest of
the plaintext secret; we use a simple 32-bit rolling digest split into
four big-endian bytes. -/
def calculateChecksum (data : List Nat) : List Nat :=
  let h := data.foldl digestStep 5381
  [(h >>> 24) &&& 255, (h >>> 16) &&& 255, (h >>> 8) &&& 255, h &&& 255]

/-- Population count of the eight bits of a byte. -/
def popCount8 (b : Nat) : Nat :=
  ((List.range 8).map (fun j => (b >>> j) &&& 1)).sum

/-- Parity of the popcount of a byte, per spec section 4.7. -/
def byteParity (b : Nat) : Nat := popCount8 b % 2

/-- Modelled from the spec: extractParityBit is called by the stego
service but its body is absent from the sources.  Spec section 4.7: the
extracted bit is the popcount parity of the byte. -/
def extractParityBit (b : Nat) : Nat := byteParity b

/-- Modelled from the spec: embedParityBit is called by the stego
service but its body is absent from the sources.  Spec section 4.7: if
the parity already equals the target bit leave the byte unchanged, else
flip the least significant bit. -/
def embedParityBit (b bit : Nat) : Nat :=
  if byteParity b == bit then b else b ^^^ 1

/-- Modelled from the spec: deterministicStartIndex in the source seeds
a generator from a sha256 digest of the key, both provided by library
code absent from the sources.  Spec section 4.3 allows any
deterministic digest reduced modulo the capacity; we use the same
rolling digest as the checksum with a different initial state. -/
def deterministicStartIndex (key : List Nat) (capacityBits : Nat) : Nat :=
  if capacityBits = 0 then 0 else (key.foldl digestStep 7919) % capacityBits

/-- Transcribed from isFrameSyncAt: the sync word is a 0xFF byte whose
successor has its top three bits set. -/
def isFrameSyncAt (d : List Nat) (i : Nat) : Bool :=
  if i + 1 ≥ d.length then false
  else byteAt d i == 0xFF && (byteAt d (i + 1) &&& 0xE0) == 0xE0

/-- Transcribed from parseID3v2Size: offset just past an ID3v2 tag
(synchsafe 28-bit size), or 0 when the buffer does not start with ID3. -/
def parseID3v2Size (d : List Nat) : Nat :=
  if d.length < 10 then 0
  else if byteAt d 0 = 0x49 ∧ byteAt d 1 = 0x44 ∧ byteAt d 2 = 0x33 then
    10 + (((byteAt d 6 &&& 0x7F) <<< 21) |||
          ((byteAt d 7 &&& 0x7F) <<< 14) |||
          ((byteAt d 8 &&& 0x7F) <<< 7) |||
          (byteAt d 9 &&& 0x7F))
  else 0

/-- Transcribed from the bitrate table in parseMP3FrameSize, in kbps,
indexed by mapped version, mapped layer and bitrate index minus one. -/
def bitrateTable : List (List (List Nat)) :=
  [[[32, 64, 96, 128, 160, 192, 224, 256, 288, 320, 352, 384, 416, 448, 0],
    [32, 48, 56, 64, 80, 96, 112, 128, 160, 192, 224, 256, 320, 384, 0],
    [32, 40, 48, 56, 64, 80, 96, 112, 128, 160, 192, 224, 256, 320, 0]],
   [[32, 48, 56, 64, 80, 96, 112, 128, 144, 160, 176, 192, 224, 256, 0],
    [8, 16, 24, 32, 40, 48, 56, 64, 80, 96, 112, 128, 144, 160, 0],
    [8, 16, 24, 32, 40, 48, 56, 64, 80, 96, 112, 128, 144, 160, 0]],
   [[32, 48, 56, 64, 80, 96, 112, 128, 144, 160, 176, 192, 224, 256, 0],
    [8, 16, 24, 32, 40, 48, 56, 64, 80, 96, 112, 128, 144, 160, 0],
    [8, 16, 24, 32, 40, 48, 56, 64, 80, 96, 112, 128, 144, 160, 0]]]

/-- Bitrate lookup, bitrateTable[vid][lid][j]. -/
def bitrateAt (vid lid j : Nat) : Nat :=
  ((bitrateTable.getD vid []).getD lid []).getD j 0

/-- Transcribed from the sample-rate table in parseMP3FrameSize, in Hz,
indexed by the raw version bits and the sample-rate index. -/
def sampleRateTable : List (List Nat) :=
  [[11025, 12000, 8000], [0, 0, 0], [22050, 24000, 16000], [44100, 48000, 32000]]

/-- Sample-rate lookup, sampleRateTable[versionBits][sampleRateIdx]. -/
def sampleRateAt (v j : Nat) : Nat :=
  (sampleRateTable.getD v []).getD j 0

/-- Version bits of the frame header at pos (bits 4..3 of byte 2). -/
def versionBitsAt (d : List Nat) (pos : Nat) : Nat := (byteAt d (pos + 1) >>> 3) &&& 0x03

/-- Layer bits of the frame header at pos (bits 2..1 of byte 2). -/
def layerBitsAt (d : List Nat) (pos : Nat) : Nat := (byteAt d (pos + 1) >>> 1) &&& 0x03

/-- Bitrate index of the frame header at pos (high nibble of byte 3). -/
def bitrateIdxAt (d : List Nat) (pos : Nat) : Nat := byteAt d (pos + 2) >>> 4

/-- Sample-rate index of the frame header at pos (bits 3..2 of byte 3). -/
def srIdxAt (d : List Nat) (pos : Nat) : Nat := (byteAt d (pos + 2) >>> 2) &&& 0x03

/-- Padding bit of the frame header at pos (bit 1 of byte 3). -/
def paddingAt (d : List Nat) (pos : Nat) : Nat := (byteAt d (pos + 2) >>> 1) &&& 0x01

/-- Version mapping of parseMP3FrameSize: 3 is MPEG1, 2 is MPEG2, 0 is
MPEG2.5. -/
def vidOf (v : Nat) : Nat := if v = 0x03 then 0 else if v = 0x02 then 1 else 2

/-- Layer mapping of parseMP3FrameSize: 3 is Layer1, 2 is Layer2, 1 is
Layer3. -/
def lidOf (l : Nat) : Nat := if l = 0x03 then 0 else if l = 0x02 then 1 else 2

/-- Bitrate of the header at pos per the table. -/
def bitrateOf (d : List Nat) (pos : Nat) : Nat :=
  bitrateAt (vidOf (versionBitsAt d pos)) (lidOf (layerBitsAt d pos)) (bitrateIdxAt d pos - 1)

/-- Sample rate of the header at pos per the table. -/
def srOf (d : List Nat) (pos : Nat) : Nat :=
  sampleRateAt (versionBitsAt d pos) (srIdxAt d pos)

/-- Frame size formula of parseMP3FrameSize before the final range
checks: the Layer1 formula or the Layer2/3 formula. -/
def rawFrameSize (d : List Nat) (pos : Nat) : Nat :=
  if layerBitsAt d pos = 0x03 then
    ((12 * bitrateOf d pos * 1000 / srOf d pos) + paddingAt d pos) * 4
  else (144 * bitrateOf d pos * 1000 / srOf d pos) + paddingAt d pos

/-- Transcribed from parseMP3FrameSize: size in bytes of the MP3 frame
whose header starts at pos, or 0 on any invalid header field, a frame
size below 4, or a frame extending past the end of the buffer.  The
local variables of the Go code are the named helper functions above. -/
def parseMP3FrameSize (d : List Nat) (pos : Nat) : Nat :=
  if d.length < pos + 4 then 0
  else if ¬ (byteAt d pos = 0xFF ∧ (byteAt d (pos + 1)) &&& 0xE0 = 0xE0) then 0
  else if versionBitsAt d pos = 0x01 then 0
  else if layerBitsAt d pos = 0x00 then 0
  else if bitrateIdxAt d pos = 0x0F ∨ bitrateIdxAt d pos = 0x00 then 0
  else if srIdxAt d pos = 0x03 then 0
  else if bitrateOf d pos = 0 then 0
  else if srOf d pos = 0 then 0
  else if rawFrameSize d pos < 4 ∨ pos + rawFrameSize d pos > d.length then 0
  else rawFrameSize d pos

/-- Transcribed from the scan loop of collectPayloadIndices; fuel bounds
the number of iterations and is always instantiated with the buffer
length, which exceeds the number of loop steps. -/
def collectLoop (d : List Nat) : Nat → Nat → List Nat
  | _, 0 => []
  | i, fuel + 1 =>
    if i < d.length - 4 then
      if ¬ isFrameSyncAt d i then collectLoop d (i + 1) fuel
      else if parseMP3FrameSize d i ≤ 4 then collectLoop d (i + 1) fuel
      else List.range' (i + 4) (min (i + parseMP3FrameSize d i) d.length - (i + 4)) ++
           collectLoop d (i + parseMP3FrameSize d i) fuel
    else []

/-- Transcribed from collectPayloadIndices: indices of the mutable
payload bytes, scanning frames after any leading ID3 tag. -/
def collectPayloadIndices (d : List Nat) : List Nat :=
  collectLoop d (parseID3v2Size d) d.length

/-- Frame header start positions recognized by the same scan; analysis
companion to collectLoop used to state header immutability. -/
def frameStartsLoop (d : List Nat) : Nat → Nat → List Nat
  | _, 0 => []
  | i, fuel + 1 =>
    if i < d.length - 4 then
      if ¬ isFrameSyncAt d i then frameStartsLoop d (i + 1) fuel
      else if parseMP3FrameSize d i ≤ 4 then frameStartsLoop d (i + 1) fuel
      else i :: frameStartsLoop d (i + parseMP3FrameSize d i) fuel
    else []

/-- Frame header start positions of the container. -/
def frameStarts (d : List Nat) : List Nat :=
  frameStartsLoop d (parseID3v2Size d) d.length

/-- Modelled from the spec for comparison with the source scanner: the
payload-index vector of a frame-coded container is every byte strictly
between a frame header's end (start + 4) and the following frame's
start; on an invalid header the scanner advances by exactly one byte
and continues to the end of the buffer. -/
def specScanLoop (d : List Nat) : Nat → Nat → List Nat
  | _, 0 => []
  | i, fuel + 1 =>
    if i < d.length then
      if parseMP3FrameSize d i = 0 then specScanLoop d (i + 1) fuel
      else List.range' (i + 4) (parseMP3FrameSize d i - 4) ++
           specScanLoop d (i + parseMP3FrameSize d i) fuel
    else []

/-- Spec-worded payload-index vector for frame-coded containers. -/
def specFrameIndices (d : List Nat) : List Nat :=
  specScanLoop d (parseID3v2Size d) d.length

/-- The magic bytes ASTEGv2 followed by a zero byte. -/
def magicBytes : List Nat := [0x41, 0x53, 0x54, 0x45, 0x47, 0x76, 0x32, 0x00]

/-- Steganography method, models.SteganographyMethod restricted to its
two valid values. -/
inductive Method
  | lsb
  | parity
deriving DecidableEq

/-- Error values from backend/models/error.go used by the stego service. -/
inductive StegoError
  | invalidMP3
  | insufficientCapacity
  | invalidLSB
  | invalidStegoKey
  | fileTooLarge
  | extractionFailed
deriving DecidableEq

/-- models.EmbedRequest, with byte buffers for the audio, filename and
key strings. -/
structure EmbedRequest where
  coverAudio : List Nat
  secretFileName : List Nat
  stegoKey : List Nat
  method : Method
  nLsb : Nat
  useEncryption : Bool
  useRandomStart : Bool

/-- models.ExtractRequest: the key and an optional method hint (the Go
request's method string is invalid when absent, making both methods
candidates). -/
structure ExtractRequest where
  stegoKey : List Nat
  method : Option Method

/-- Big-endian two-byte encoding, binary.Write with uint16 (the Go
conversion truncates, reflected by the masks). -/
def be16 (x : Nat) : List Nat := [(x >>> 8) &&& 255, x &&& 255]

/-- Big-endian four-byte encoding, binary.Write with uint32. -/
def be32 (x : Nat) : List Nat :=
  [(x >>> 24) &&& 255, (x >>> 16) &&& 255, (x >>> 8) &&& 255, x &&& 255]

/-- Method byte written into the frame: 0 for LSB, 1 for parity. -/
def methodByte : Method → Nat
  | .lsb => 0
  | .parity => 1

/-- The nLSB byte written into the frame; the parity method always
stores 1. -/
def nLsbByteOf (req : EmbedRequest) : Nat :=
  if req.method = .parity then 1 else req.nLsb

/-- Flags byte: bit 0 encryption, bit 1 random start. -/
def flagsByte (req : EmbedRequest) : Nat :=
  (if req.useEncryption then 1 else 0) + (if req.useRandomStart then 2 else 0)

/-- UTF-8 bytes of the default filename secret.bin. -/
def defaultName : List Nat := [0x73, 0x65, 0x63, 0x72, 0x65, 0x74, 0x2E, 0x62, 0x69, 0x6E]

/-- Filename actually stored: the default replaces an empty name. -/
def effectiveName (fn : List Nat) : List Nat := if fn = [] then defaultName else fn

/-- Stored secret payload of EmbedMessage: with encryption the checksum
of the plaintext is prepended and the whole is XOR-enciphered, else the
raw secret. -/
def secretToStoreOf (req : EmbedRequest) (secretData : List Nat) : List Nat :=
  if req.useEncryption then
    vigenereCipher (calculateChecksum secretData ++ secretData) req.stegoKey
  else secretData

/-- The header-plus-payload byte sequence EmbedMessage serialises into
its buffer before bit conversion. -/
def buildFrame (req : EmbedRequest) (secretData metadata : List Nat) : List Nat :=
  let stored := secretToStoreOf req secretData
  let fname := effectiveName req.secretFileName
  magicBytes ++ [methodByte req.method, nLsbByteOf req, flagsByte req] ++
    be16 fname.length ++ be32 stored.length ++ fname ++
    be16 metadata.length ++ metadata ++ stored

/-- Write one bit into an LSB slot of a byte: set the slot bit when the
bit is 1, clear it otherwise (Go AND-NOT on an 8-bit value). -/
def setLsbSlot (b slot bit : Nat) : Nat :=
  if bit = 1 then b ||| (1 <<< slot) else b &&& (255 ^^^ (1 <<< slot))

/-- Transcribed from the LSB embedding loop of EmbedMessage: each
message bit goes to slot bitPos mod n of payload byte bitPos div n,
wrapping to zero at the capacity. -/
def lsbEmbedLoop (p : List Nat) (n c : Nat) : List Nat → List Nat → Nat → List Nat
  | cover, [], _ => cover
  | cover, bit :: rest, bitPos =>
    let bp := if c ≤ bitPos then 0 else bitPos
    let pos := p.getD (bp / n) 0
    lsbEmbedLoop p n c (cover.set pos (setLsbSlot (byteAt cover pos) (bp % n) bit)) rest (bp + 1)

/-- Transcribed from the parity embedding loop of EmbedMessage: message
bit bitPos adjusts the parity of payload byte bitPos, wrapping at the
capacity. -/
def parityEmbedLoop (p : List Nat) (c : Nat) : List Nat → List Nat → Nat → List Nat
  | cover, [], _ => cover
  | cover, bit :: rest, bitPos =>
    let bp := if c ≤ bitPos then 0 else bitPos
    let pos := p.getD bp 0
    parityEmbedLoop p c (cover.set pos (embedParityBit (byteAt cover pos) bit)) rest (bp + 1)

/-- Transcribed from stegoService.EmbedMessage, returning the stego
container or the first error in source order.  The PSNR side output is
omitted: no claim concerns it. -/
def embedMessage (req : EmbedRequest) (secretData metadata : List Nat) :
    Except StegoError (List Nat) :=
  if req.method = .lsb ∧ (req.nLsb < 1 ∨ 4 < req.nLsb) then .error .invalidLSB
  else if req.useEncryption ∧ req.stegoKey = [] then .error .invalidStegoKey
  else if 0xFFFF < (effectiveName req.secretFileName).length then .error .fileTooLarge
  else if 0xFFFF < metadata.length then .error .fileTooLarge
  else
    let cover := req.coverAudio
    let toEmbedBits := bytesToBits (buildFrame req secretData metadata)
    let payloadIdxs := collectPayloadIndices cover
    if payloadIdxs.length = 0 then .error .invalidMP3
    else
      let totalCapacityBits :=
        if req.method = .lsb then payloadIdxs.length * req.nLsb else payloadIdxs.length
      if totalCapacityBits < toEmbedBits.length then .error .insufficientCapacity
      else if req.useRandomStart ∧ req.stegoKey = [] then .error .invalidStegoKey
      else
        let startBit :=
          if req.useRandomStart then deterministicStartIndex req.stegoKey totalCapacityBits
          else 0
        if req.method = .lsb then
          .ok (lsbEmbedLoop payloadIdxs req.nLsb totalCapacityBits cover toEmbedBits startBit)
        else
          .ok (parityEmbedLoop payloadIdxs totalCapacityBits cover toEmbedBits startBit)

/-- Big-endian 16-bit read, binary.BigEndian.Uint16. -/
def readBE16 (raw : List Nat) (off : Nat) : Nat :=
  byteAt raw off * 256 + byteAt raw (off + 1)

/-- Big-endian 32-bit read, binary.BigEndian.Uint32. -/
def readBE32 (raw : List Nat) (off : Nat) : Nat :=
  ((byteAt raw off * 256 + byteAt raw (off + 1)) * 256 + byteAt raw (off + 2)) * 256 +
    byteAt raw (off + 3)

/-- Rotation of the bit stream so that position start becomes 0,
transcribed from tryExtractFromBits. -/
def rotateBits (bits : List Nat) (start : Nat) : List Nat :=
  (List.range bits.length).map (fun i => bits.getD ((start + i) % bits.length) 0)

/-- One candidate start of tryExtractFromBits: none models the continue
branches, some an immediate return (success or hard key error). -/
def tryOneStart (req : ExtractRequest) (bits : List Nat) (expectedMethod expectedN start : Nat) :
    Option (Except StegoError (List Nat × List Nat)) :=
  let raw := bitsToBytes (rotateBits bits start)
  if raw.length < 17 then none
  else if raw.take 8 ≠ magicBytes then none
  else if ¬ (byteAt raw 8 = expectedMethod ∧ byteAt raw 9 = expectedN) then none
  else
    let flags := byteAt raw 10
    let filenameLen := readBE16 raw 11
    let secretLen := readBE32 raw 13
    if raw.length < 8 + 1 + 1 + 1 + 2 + 4 + filenameLen + 2 then none
    else if 0 < filenameLen ∧ raw.length < 17 + filenameLen + 2 then none
    else
      let filename := (raw.drop 17).take filenameLen
      let metadataLen := readBE16 raw (17 + filenameLen)
      let metaStart := 17 + filenameLen + 2
      if raw.length < metaStart + metadataLen + secretLen then none
      else
        let secretBytes := (raw.drop (metaStart + metadataLen)).take secretLen
        if flags &&& 1 ≠ 0 then
          if req.stegoKey = [] then some (.error .invalidStegoKey)
          else
            let decrypted := vigenereCipher secretBytes req.stegoKey
            if decrypted.length < 4 then some (.error .invalidStegoKey)
            else if decrypted.take 4 ≠ calculateChecksum (decrypted.drop 4) then
              some (.error .invalidStegoKey)
            else some (.ok (decrypted.drop 4, filename))
        else some (.ok (secretBytes, filename))

/-- Start positions tried: always 0, plus the keyed start when a key is
present. -/
def tryStartsFor (req : ExtractRequest) (totalBits : Nat) : List Nat :=
  [0] ++ (if req.stegoKey ≠ [] then [deterministicStartIndex req.stegoKey totalBits] else [])

/-- The start loop of tryExtractFromBits. -/
def tryStartsLoop (req : ExtractRequest) (bits : List Nat) (expectedMethod expectedN : Nat) :
    List Nat → Except StegoError (List Nat × List Nat)
  | [] => .error .extractionFailed
  | s :: rest =>
    match tryOneStart req bits expectedMethod expectedN s with
    | none => tryStartsLoop req bits expectedMethod expectedN rest
    | some r => r

/-- Transcribed from stegoService.tryExtractFromBits. -/
def tryExtractFromBits (req : ExtractRequest) (bits : List Nat)
    (totalBits expectedMethod expectedN : Nat) :
    Except StegoError (List Nat × List Nat) :=
  tryStartsLoop req bits expectedMethod expectedN (tryStartsFor req totalBits)

/-- Linear LSB bit stream read by extractLSBMethod: slots 0 to n-1 of
each payload byte in order. -/
def lsbBitsFor (cover p : List Nat) (n : Nat) : List Nat :=
  p.flatMap (fun idx => (List.range n).map (fun slot => (byteAt cover idx >>> slot) &&& 1))

/-- The n loop of extractLSBMethod: every error, including the key
error, makes it try the next n. -/
def lsbTryLoop (req : ExtractRequest) (cover p : List Nat) :
    List Nat → Except StegoError (List Nat × List Nat)
  | [] => .error .extractionFailed
  | n :: rest =>
    match tryExtractFromBits req (lsbBitsFor cover p n) (p.length * n) 0 n with
    | .ok r => .ok r
    | .error _ => lsbTryLoop req cover p rest

/-- Transcribed from stegoService.extractLSBMethod. -/
def extractLSBMethod (req : ExtractRequest) (cover p : List Nat) :
    Except StegoError (List Nat × List Nat) :=
  lsbTryLoop req cover p [1, 2, 3, 4]

/-- Parity bit stream read by extractParityMethod. -/
def parityBitsFor (cover p : List Nat) : List Nat :=
  p.map (fun idx => extractParityBit (byteAt cover idx))

/-- Transcribed from stegoService.extractParityMethod; errors propagate
to the caller unchanged. -/
def extractParityMethod (req : ExtractRequest) (cover p : List Nat) :
    Except StegoError (List Nat × List Nat) :=
  tryExtractFromBits req (parityBitsFor cover p) p.length 1 1

/-- Candidate methods: the hint restricts extraction to one method, no
hint tries LSB then parity. -/
def methodsToTry : Option Method → List Method
  | none => [.lsb, .parity]
  | some .lsb => [.lsb]
  | some .parity => [.parity]

/-- The method loop of ExtractMessage: any per-method error only moves
to the next candidate, and after the loop the error is always
extractionFailed. -/
def extractLoop (req : ExtractRequest) (cover p : List Nat) :
    List Method → Except StegoError (List Nat × List Nat)
  | [] => .error .extractionFailed
  | m :: rest =>
    match (if m = .lsb then extractLSBMethod req cover p else extractParityMethod req cover p) with
    | .ok r => .ok r
    | .error _ => extractLoop req cover p rest

/-- Transcribed from stegoService.ExtractMessage, returning the secret
bytes and the stored filename. -/
def extractMessage (req : ExtractRequest) (audioData : List Nat) :
    Except StegoError (List Nat × List Nat) :=
  if audioData.length = 0 then .error .invalidMP3
  else
    let p := collectPayloadIndices audioData
    if p.length = 0 then .error .invalidMP3
    else extractLoop req audioData p (methodsToTry req.method)

/-- models.CapacityResult: embeddable byte counts per method. -/
structure CapacityResult where
  oneLSB : Nat
  twoLSB : Nat
  threeLSB : Nat
  fourLSB : Nat
  parity : Nat
deriving DecidableEq

/-- Transcribed from stegoService.CalculateCapacity (v2): byte
capacities derived from the payload-index count. -/
def calculateCapacity (audioData : List Nat) : Except StegoError CapacityResult :=
  if audioData.length = 0 then .error .invalidMP3
  else
    let indices := collectPayloadIndices audioData
    if indices.length = 0 then .error .invalidMP3
    else .ok
      { oneLSB := indices.length * 1 / 8
        twoLSB := indices.length * 2 / 8
        threeLSB := indices.length * 3 / 8
        fourLSB := indices.length * 4 / 8
        parity := indices.length / 8 }

/-- Capacity in bytes for a chosen method and k, as the calculator
reports it. -/
def capacityBytes (d : List Nat) (m : Method) (k : Nat) : Nat :=
  match m with
  | .lsb => (collectPayloadIndices d).length * k / 8
  | .parity => (collectPayloadIndices d).length / 8

end Stego

namespace Stego

/-- A 32-byte MPEG1 Layer1 frame: valid header, zero payload. -/
def frame32 : List Nat := [0xFF, 0xFF, 0x14, 0] ++ List.replicate 28 0

/-- A two-frame cover container used by concrete witnesses. -/
def cover64 : List Nat := frame32 ++ frame32

/-- Request with obfuscation on, used to exhibit the payload layout. -/
def encReq : EmbedRequest :=
  { coverAudio := [], secretFileName := [0x66], stegoKey := [0x6B], method := .lsb,
    nLsb := 1, useEncryption := true, useRandomStart := false }

/-- Plain LSB-4 embed request over the two-frame cover. -/
def lsb4Req : EmbedRequest :=
  { coverAudio := cover64, secretFileName := [0x66], stegoKey := [], method := .lsb,
    nLsb := 4, useEncryption := false, useRandomStart := false }

/-- Modelled from the spec (section 4.2, PCM path) for comparison with
the source scanner: walk the chunks from offset 12, read a 4-byte tag
and 4-byte little-endian size, emit the data chunk body, skip other
chunks plus a pad byte when the size is odd, fail on truncation. -/
def pcmChunkWalk (d : List Nat) : Nat → Nat → Option (List Nat)
  | _, 0 => none
  | off, fuel + 1 =>
    if d.length < off + 8 then none
    else
      let size := byteAt d (off + 4) + byteAt d (off + 5) * 256 +
        byteAt d (off + 6) * 65536 + byteAt d (off + 7) * 16777216
      if byteAt d off = 0x64 ∧ byteAt d (off + 1) = 0x61 ∧
         byteAt d (off + 2) = 0x74 ∧ byteAt d (off + 3) = 0x61 then
        if d.length < off + 8 + size then none
        else some (List.range' (off + 8) size)
      else pcmChunkWalk d (off + 8 + size + size % 2) fuel

/-- Modelled from the spec: the PCM payload-index vector is every byte
of the data chunk body of a RIFF/WAVE container. -/
def pcmDataIndices (d : List Nat) : Option (List Nat) :=
  if d.length < 12 then none
  else if byteAt d 0 = 0x52 ∧ byteAt d 1 = 0x49 ∧ byteAt d 2 = 0x46 ∧ byteAt d 3 = 0x46 ∧
          byteAt d 8 = 0x57 ∧ byteAt d 9 = 0x41 ∧ byteAt d 10 = 0x56 ∧ byteAt d 11 = 0x45
  then pcmChunkWalk d 12 d.length
  else none

/-- A RIFF/WAVE container whose 36-byte data chunk happens to contain a
valid MP3 frame, so the source scanner recognizes it with a non-empty
payload-index vector. -/
def wavEx : List Nat :=
  [0x52, 0x49, 0x46, 0x46, 0, 0, 0, 0, 0x57, 0x41, 0x56, 0x45,
   0x64, 0x61, 0x74, 0x61, 36, 0, 0, 0] ++ frame32 ++ [0, 0, 0, 0]

/-- The stego container produced by the concrete LSB-4 embed. -/
def stego64 : List Nat := (embedMessage lsb4Req [0xAB] []).toOption.getD []

/-- Reassembled byte stream of an extraction candidate at start 0. -/
def rawOf (bits : List Nat) : List Nat := bitsToBytes (rotateBits bits 0)

/-- Filename length field of a candidate byte stream. -/
def fnameLenOf (raw : List Nat) : Nat := readBE16 raw 11

/-- Secret length field of a candidate byte stream. -/
def secretLenOf (raw : List Nat) : Nat := readBE32 raw 13

/-- Metadata length field of a candidate byte stream. -/
def metaLenOf (raw : List Nat) : Nat := readBE16 raw (17 + fnameLenOf raw)

/-- Stored secret bytes of a candidate byte stream. -/
def candSecret (raw : List Nat) : List Nat :=
  (raw.drop (17 + fnameLenOf raw + 2 + metaLenOf raw)).take (secretLenOf raw)

/-- The byte an LSB trial with the wrong slot count reads at byte
position beta of its stream, when the cover was embedded with k slots:
every bit lands inside the serialized magic. -/
def wrongByte (k n2 beta : Nat) : Nat :=
  byteFromBits ((List.range 8).map (fun j =>
    byteAt (bytesToBits magicBytes) (((8 * beta + j) / n2) * k + (8 * beta + j) % n2)))

/-- Embed request with obfuscation, used by the wrong-key scenario. -/
def encReq64 : EmbedRequest :=
  { coverAudio := cover64, secretFileName := [0x66], stegoKey := [0x6B], method := .lsb,
    nLsb := 4, useEncryption := true, useRandomStart := false }

/-- Stego container of the obfuscated embed. -/
def stegoC4 : List Nat := (embedMessage encReq64 [0xAB] []).toOption.getD []

/-- A concrete well-formed frame with the obfuscation flag set, payload
enciphered under key 0x6B. -/
def frameC4 : List Nat :=
  magicBytes ++ [0, 1, 1] ++ [0, 1] ++ [0, 0, 0, 5] ++ [0x66] ++ [0, 0] ++
    vigenereCipher (calculateChecksum [0xAB] ++ [0xAB]) [0x6B]

/-- Three-frame cover for the default-filename witness. -/
def cover96 : List Nat := frame32 ++ frame32 ++ frame32

/-- Embed request with an empty filename over the three-frame cover. -/
def defNameReq : EmbedRequest :=
  { coverAudio := cover96, secretFileName := [], stegoKey := [], method := .lsb,
    nLsb := 4, useEncryption := false, useRandomStart := false }

/-- Stego container of the empty-filename embed. -/
def stego96 : List Nat := (embedMessage defNameReq [0xAB] []).toOption.getD []

/-- The conditions under which the round-trip law is provable against
the code: keyed start off, the hint absent or matching, and for LSB
with k above 1 an empty key (otherwise extraction tries keyed start
positions of earlier candidates on cover-dependent data), while
parity requires an explicit parity hint (the LSB candidates run first
and read cover-dependent data). -/
def RoundTripCase (req : EmbedRequest) (hint : Option Method) : Prop :=
  req.useRandomStart = false ∧
  ((req.method = .lsb ∧ (hint = none ∨ hint = some .lsb) ∧
      ((req.stegoKey = [] ∧ req.useEncryption = false) ∨ req.nLsb = 1)) ∨
   (req.method = .parity ∧ hint = some .parity))

end Stego

namespace Stego

/-! ## Basic lemmas about the byte and bit utilities -/

theorem length_vigenereCipher (x key : List Nat) :
    (vigenereCipher x key).length = x.length := by
  unfold vigenereCipher
  split
  · rfl
  · simp

theorem bytesToBits_cons (b : Nat) (d : List Nat) :
    bytesToBits (b :: d) = bitsOfByte b ++ bytesToBits d := rfl

theorem length_bitsOfByte (b : Nat) : (bitsOfByte b).length = 8 := by
  simp [bitsOfByte]

theorem length_bytesToBits (d : List Nat) : (bytesToBits d).length = 8 * d.length := by
  induction d with
  | nil => rfl
  | cons b rest ih =>
      rw [bytesToBits_cons, List.length_append, length_bitsOfByte, ih, List.length_cons]
      ring

theorem get_vigenereCipher (x key : List Nat) (hk : key ≠ []) (i : Nat) (hi : i < x.length) :
    (vigenereCipher x key).getD i 0 = x.getD i 0 ^^^ key.getD (i % key.length) 0 := by
  unfold vigenereCipher
  rw [if_neg (by simp [hk])]
  have hi2 : i < (x.mapIdx fun i b => b ^^^ key.getD (i % key.length) 0).length := by
    simpa using hi
  rw [List.getD_eq_getElem _ _ hi2, List.getD_eq_getElem _ _ hi]
  have := List.get_mapIdx x (fun i b => b ^^^ key.getD (i % key.length) 0) i hi
  exact this

theorem vigenereCipher_involutive (x key : List Nat) :
    vigenereCipher (vigenereCipher x key) key = x := by
  by_cases hk : key = []
  · subst hk; simp [vigenereCipher]
  · apply List.ext_getElem
    · simp [length_vigenereCipher]
    · intro i h1 h2
      have hi : i < (vigenereCipher x key).length := by simpa [length_vigenereCipher] using h2
      rw [← List.getD_eq_getElem _ 0 h1, ← List.getD_eq_getElem _ 0 h2,
        get_vigenereCipher _ _ hk i hi, get_vigenereCipher _ _ hk i h2]
      simp [Nat.xor_assoc]

/-- C7: the stream obfuscation is a repeating-key XOR, pointwise
data[i] XOR key[i mod key length], it is its own inverse, and the empty
key leaves the data unchanged. -/
theorem vigenere_xor_stream_spec (x key : List Nat) :
    (key ≠ [] → ∀ i, i < x.length →
        (vigenereCipher x key).getD i 0 = x.getD i 0 ^^^ key.getD (i % key.length) 0) ∧
    vigenereCipher (vigenereCipher x key) key = x ∧
    vigenereCipher x [] = x := by
  refine ⟨fun hk i hi => get_vigenereCipher x key hk i hi, vigenereCipher_involutive x key, ?_⟩
  simp [vigenereCipher]

/-- Witness for C7 at concrete data and key. -/
theorem vigenere_xor_stream_spec_witness :
    (vigenereCipher [7, 2, 3] [5]).getD 0 0 = 7 ^^^ 5 ∧
    vigenereCipher (vigenereCipher [7, 2, 3] [5]) [5] = [7, 2, 3] := by
  have h := vigenere_xor_stream_spec [7, 2, 3] [5]
  exact ⟨h.1 (by decide) 0 (by decide), h.2.1⟩

/-! ## C8: capacity formulas -/

/-- C8: for a container with a non-empty payload-index vector the
calculator reports floor(P * k / 8) bytes for LSB-k and floor(P / 8)
for parity; capacity is monotone in k and parity equals LSB-1. -/
theorem calculateCapacity_formulas (d : List Nat)
    (h : (collectPayloadIndices d).length ≠ 0) :
    calculateCapacity d = .ok
      { oneLSB := (collectPayloadIndices d).length * 1 / 8
        twoLSB := (collectPayloadIndices d).length * 2 / 8
        threeLSB := (collectPayloadIndices d).length * 3 / 8
        fourLSB := (collectPayloadIndices d).length * 4 / 8
        parity := (collectPayloadIndices d).length / 8 } ∧
    (∀ k1 k2, k1 ≤ k2 → capacityBytes d .lsb k1 ≤ capacityBytes d .lsb k2) ∧
    capacityBytes d .parity 1 = capacityBytes d .lsb 1 := by
  have hd : d.length ≠ 0 := by
    intro h0
    apply h
    have : d = [] := List.length_eq_zero.mp h0
    subst this
    rfl
  refine ⟨?_, ?_, ?_⟩
  · unfold calculateCapacity
    rw [if_neg hd, if_neg h]
  · intro k1 k2 hk
    exact Nat.div_le_div_right (Nat.mul_le_mul_left _ hk)
  · simp [capacityBytes]

/-- Witness for C8 on the concrete two-frame cover. -/
theorem calculateCapacity_formulas_witness :
    calculateCapacity cover64 = .ok
      { oneLSB := 7, twoLSB := 14, threeLSB := 21, fourLSB := 28, parity := 7 } ∧
    capacityBytes cover64 .parity 1 = capacityBytes cover64 .lsb 1 := by
  have h := calculateCapacity_formulas cover64 (by decide)
  refine ⟨?_, h.2.2⟩
  rw [h.1]
  simp only [Except.ok.injEq]
  decide

/-! ## C9: parity embedding and extraction -/

theorem parity_embed_all :
    ∀ v, v < 256 → ∀ b, b < 2 →
      byteParity (embedParityBit v b) = b ∧
      (byteParity v = b → embedParityBit v b = v) ∧
      (byteParity v ≠ b → embedParityBit v b = v ^^^ 1) ∧
      extractParityBit (embedParityBit v b) = b := by decide

/-- C9: embedding a bit by parity yields a byte whose popcount parity
is that bit, leaves the byte unchanged when the parity already matches,
otherwise flips exactly the least significant bit, and parity
extraction returns the embedded bit.  The parity pair is modelled from
the spec because its body is absent from the sources. -/
theorem parity_embed_extract_spec (v b : Nat) (hv : v < 256) (hb : b < 2) :
    byteParity (embedParityBit v b) = b ∧
    (byteParity v = b → embedParityBit v b = v) ∧
    (byteParity v ≠ b → embedParityBit v b = v ^^^ 1) ∧
    extractParityBit (embedParityBit v b) = b :=
  parity_embed_all v hv b hb

/-- Witness for C9 at a concrete byte and bit. -/
theorem parity_embed_extract_spec_witness :
    byteParity (embedParityBit 0xA7 1) = 1 ∧
    extractParityBit (embedParityBit 0xA7 1) = 1 := by
  have h := parity_embed_extract_spec 0xA7 1 (by decide) (by decide)
  exact ⟨h.1, h.2.2.2⟩

/-! ## C5: shape of the stored payload field -/

theorem length_calculateChecksum (d : List Nat) : (calculateChecksum d).length = 4 := rfl

theorem buildFrame_split (req : EmbedRequest) (secret metadata : List Nat) :
    buildFrame req secret metadata =
      (magicBytes ++ [methodByte req.method, nLsbByteOf req, flagsByte req] ++
        be16 (effectiveName req.secretFileName).length ++
        be32 (secretToStoreOf req secret).length ++ effectiveName req.secretFileName ++
        be16 metadata.length ++ metadata) ++ secretToStoreOf req secret := by
  simp [buildFrame, List.append_assoc]

theorem buildFrame_drop_payload (req : EmbedRequest) (secret metadata : List Nat) :
    (buildFrame req secret metadata).drop
        (17 + (effectiveName req.secretFileName).length + 2 + metadata.length) =
      secretToStoreOf req secret := by
  rw [buildFrame_split, List.drop_left']
  simp [magicBytes, be16, be32]
  ring

/-- C5 as the spec table states it fails on the code: with obfuscation
on, the stored payload field is the obfuscation of the checksum
followed by the secret, not the plain checksum followed by the
obfuscated secret.  Concrete instance: secret 0x00, key 0x6B. -/
theorem frame_payload_field_cex :
    (buildFrame encReq [0] []).drop 20 ≠
      calculateChecksum [0] ++ vigenereCipher [0] [0x6B] := by decide

/-- C5 amended: with the obfuscation flag set the payload field of the
built frame is obfuscated(checksum(4) followed by secret) and its
stored length is the secret length plus 4; with the flag clear the
payload field is the raw secret of its own length.  The checksum is
modelled from the spec because its body is absent from the sources. -/
theorem frame_payload_field_spec (req : EmbedRequest) (secret metadata : List Nat) :
    (req.useEncryption = true →
        (buildFrame req secret metadata).drop
            (17 + (effectiveName req.secretFileName).length + 2 + metadata.length) =
          vigenereCipher (calculateChecksum secret ++ secret) req.stegoKey ∧
        (secretToStoreOf req secret).length = secret.length + 4) ∧
    (req.useEncryption = false →
        (buildFrame req secret metadata).drop
            (17 + (effectiveName req.secretFileName).length + 2 + metadata.length) = secret ∧
        (secretToStoreOf req secret).length = secret.length) := by
  constructor
  · intro he
    rw [buildFrame_drop_payload]
    unfold secretToStoreOf
    simp only [he, if_true, length_vigenereCipher, List.length_append,
      length_calculateChecksum]
    exact ⟨trivial, by omega⟩
  · intro he
    rw [buildFrame_drop_payload]
    unfold secretToStoreOf
    simp [he]

/-- Witness for the amended C5 at a concrete request. -/
theorem frame_payload_field_spec_witness :
    (buildFrame encReq [0] []).drop 20 =
      vigenereCipher (calculateChecksum [0] ++ [0]) [0x6B] ∧
    (secretToStoreOf encReq [0]).length = 5 := by
  have h := (frame_payload_field_spec encReq [0] []).1 rfl
  exact ⟨h.1, h.2⟩

/-! ## C3: the capacity boundary -/

/-- C3: with otherwise valid inputs, embedding fails with the capacity
error exactly when the frame bit length exceeds eight times the byte
capacity the calculator reports for the chosen method and k, and
succeeds otherwise (so a frame exactly at the bound succeeds and any
longer frame fails).  On the error no container is produced; the model
is pure and the Go code mutates only its private copy of the input. -/
theorem embed_capacity_boundary (req : EmbedRequest) (secret metadata : List Nat)
    (hk : req.method = .lsb → 1 ≤ req.nLsb ∧ req.nLsb ≤ 4)
    (henc : req.useEncryption = true → req.stegoKey ≠ [])
    (hrs : req.useRandomStart = true → req.stegoKey ≠ [])
    (hfn : (effectiveName req.secretFileName).length ≤ 0xFFFF)
    (hmd : metadata.length ≤ 0xFFFF)
    (hP : (collectPayloadIndices req.coverAudio).length ≠ 0) :
    (embedMessage req secret metadata = .error .insufficientCapacity ↔
        8 * capacityBytes req.coverAudio req.method req.nLsb <
          (bytesToBits (buildFrame req secret metadata)).length) ∧
    (¬ 8 * capacityBytes req.coverAudio req.method req.nLsb <
          (bytesToBits (buildFrame req secret metadata)).length →
        ∃ out, embedMessage req secret metadata = .ok out) := by
  have h1 : ¬ (req.method = .lsb ∧ (req.nLsb < 1 ∨ 4 < req.nLsb)) := by
    rintro ⟨hm, hrange⟩
    rcases hk hm with ⟨ha, hb⟩
    omega
  have h2 : ¬ (req.useEncryption = true ∧ req.stegoKey = []) := by
    rintro ⟨ha, hb⟩
    exact henc ha hb
  have h4 : ¬ (req.useRandomStart = true ∧ req.stegoKey = []) := by
    rintro ⟨ha, hb⟩
    exact hrs ha hb
  have hbits : (bytesToBits (buildFrame req secret metadata)).length =
      8 * (buildFrame req secret metadata).length := length_bytesToBits _
  have hcapiff : ∀ tc : Nat,
      (tc < 8 * (buildFrame req secret metadata).length ↔
        8 * (tc / 8) < 8 * (buildFrame req secret metadata).length) := by
    intro tc
    have hdm := Nat.div_add_mod tc 8
    have hml : tc % 8 < 8 := Nat.mod_lt _ (by omega)
    omega
  unfold embedMessage
  rw [if_neg h1, if_neg h2, if_neg (by omega), if_neg (by omega), if_neg hP]
  by_cases hm : req.method = .lsb
  · rw [if_pos hm]
    simp only [hm, capacityBytes, hbits]
    by_cases hcap : (collectPayloadIndices req.coverAudio).length * req.nLsb <
        8 * (buildFrame req secret metadata).length
    · rw [if_pos (by simpa [hbits] using hcap)]
      constructor
      · exact ⟨fun _ => (hcapiff _).mp hcap, fun _ => rfl⟩
      · intro hn
        exact absurd ((hcapiff _).mp hcap) hn
    · rw [if_neg (by simpa [hbits] using hcap)]
      rw [if_neg h4, if_pos trivial]
      constructor
      · constructor
        · intro h
          exact absurd h (by simp)
        · intro h
          exact absurd ((hcapiff _).mpr h) hcap
      · intro _
        exact ⟨_, rfl⟩
  · have hm2 : req.method = .parity := by
      cases hme : req.method
      · exact absurd hme hm
      · rfl
    rw [if_neg hm]
    simp only [hm2, capacityBytes, hbits]
    by_cases hcap : (collectPayloadIndices req.coverAudio).length <
        8 * (buildFrame req secret metadata).length
    · rw [if_pos (by simpa [hbits] using hcap)]
      constructor
      · exact ⟨fun _ => (hcapiff _).mp hcap, fun _ => rfl⟩
      · intro hn
        exact absurd ((hcapiff _).mp hcap) hn
    · rw [if_neg (by simpa [hbits] using hcap)]
      rw [if_neg h4, if_neg (show ¬ Method.parity = Method.lsb by decide)]
      constructor
      · constructor
        · intro h
          exact absurd h (by simp)
        · intro h
          exact absurd ((hcapiff _).mpr h) hcap
      · intro _
        exact ⟨_, rfl⟩

/-! ## C2: the payload-index vector -/

theorem getD_mem_or_default {α : Type} (l : List α) (n : Nat) (d : α) :
    l.getD n d ∈ l ∨ l.getD n d = d := by
  by_cases h : n < l.length
  · left
    rw [List.getD_eq_getElem _ _ h]
    exact List.getElem_mem _
  · right
    exact List.getD_eq_default _ _ (le_of_not_lt h)

theorem bitrateAt_bound (vid lid j : Nat) :
    bitrateAt vid lid j = 0 ∨ 8 ≤ bitrateAt vid lid j := by
  have hall : ∀ g ∈ bitrateTable, ∀ row ∈ g, ∀ x ∈ row, x = 0 ∨ 8 ≤ x := by decide
  unfold bitrateAt
  rcases getD_mem_or_default bitrateTable vid [] with hg | hg
  · rcases getD_mem_or_default (bitrateTable.getD vid []) lid [] with hr | hr
    · rcases getD_mem_or_default ((bitrateTable.getD vid []).getD lid []) j 0 with hx | hx
      · exact hall _ hg _ hr _ hx
      · left
        exact hx
    · rw [hr]
      left
      rfl
  · rw [hg]
    left
    rfl

theorem bitrateAt_bound_l1 (vid j : Nat) :
    bitrateAt vid 0 j = 0 ∨ 32 ≤ bitrateAt vid 0 j := by
  have hall : ∀ g ∈ bitrateTable, ∀ x ∈ g.getD 0 [], x = 0 ∨ 32 ≤ x := by decide
  unfold bitrateAt
  rcases getD_mem_or_default bitrateTable vid [] with hg | hg
  · rcases getD_mem_or_default ((bitrateTable.getD vid []).getD 0 []) j 0 with hx | hx
    · exact hall _ hg _ hx
    · left
      exact hx
  · rw [hg]
    left
    rfl

theorem sampleRateAt_bound (v j : Nat) :
    sampleRateAt v j = 0 ∨ (8000 ≤ sampleRateAt v j ∧ sampleRateAt v j ≤ 48000) := by
  have hall : ∀ r ∈ sampleRateTable, ∀ x ∈ r, x = 0 ∨ (8000 ≤ x ∧ x ≤ 48000) := by decide
  unfold sampleRateAt
  rcases getD_mem_or_default sampleRateTable v [] with hr | hr
  · rcases getD_mem_or_default (sampleRateTable.getD v []) j 0 with hx | hx
    · exact hall _ hr _ hx
    · left
      exact hx
  · rw [hr]
    left
    rfl

theorem rawFrameSize_ge (d : List Nat) (pos : Nat) (hb : bitrateOf d pos ≠ 0)
    (hs : srOf d pos ≠ 0) : 24 ≤ rawFrameSize d pos := by
  have hsr : 8000 ≤ srOf d pos ∧ srOf d pos ≤ 48000 :=
    (sampleRateAt_bound (versionBitsAt d pos) (srIdxAt d pos)).resolve_left hs
  have hspos : 0 < srOf d pos := by omega
  unfold rawFrameSize
  by_cases hl : layerBitsAt d pos = 0x03
  · rw [if_pos hl]
    have hlid : lidOf (layerBitsAt d pos) = 0 := by
      rw [hl]
      decide
    have hb2 : bitrateAt (vidOf (versionBitsAt d pos)) 0 (bitrateIdxAt d pos - 1) ≠ 0 := by
      unfold bitrateOf at hb
      rwa [hlid] at hb
    have h32 : 32 ≤ bitrateOf d pos := by
      have h := (bitrateAt_bound_l1 (vidOf (versionBitsAt d pos))
        (bitrateIdxAt d pos - 1)).resolve_left hb2
      unfold bitrateOf
      rwa [hlid]
    have hdiv : 8 ≤ 12 * bitrateOf d pos * 1000 / srOf d pos := by
      rw [Nat.le_div_iff_mul_le hspos]
      calc 8 * srOf d pos ≤ 8 * 48000 := Nat.mul_le_mul_left 8 hsr.2
        _ ≤ 12000 * bitrateOf d pos :=
          le_trans (by norm_num) (Nat.mul_le_mul_left 12000 h32)
        _ = 12 * bitrateOf d pos * 1000 := by ring
    omega
  · rw [if_neg hl]
    have h8 : 8 ≤ bitrateOf d pos := (bitrateAt_bound _ _ _).resolve_left hb
    have hdiv : 24 ≤ 144 * bitrateOf d pos * 1000 / srOf d pos := by
      rw [Nat.le_div_iff_mul_le hspos]
      calc 24 * srOf d pos ≤ 24 * 48000 := Nat.mul_le_mul_left 24 hsr.2
        _ ≤ 144000 * bitrateOf d pos :=
          le_trans (by norm_num) (Nat.mul_le_mul_left 144000 h8)
        _ = 144 * bitrateOf d pos * 1000 := by ring
    omega

theorem parseMP3FrameSize_cases (d : List Nat) (pos : Nat) :
    parseMP3FrameSize d pos = 0 ∨
      (24 ≤ parseMP3FrameSize d pos ∧ pos + parseMP3FrameSize d pos ≤ d.length) := by
  unfold parseMP3FrameSize
  split_ifs with h1 h2 h3 h4 h5 h6 h7 h8 h9
  all_goals try (left; rfl)
  right
  push_neg at h9
  exact ⟨rawFrameSize_ge d pos h7 h8, h9.2⟩

theorem parseMP3FrameSize_of_not_sync (d : List Nat) (i : Nat)
    (h : isFrameSyncAt d i = false) : parseMP3FrameSize d i = 0 := by
  unfold isFrameSyncAt at h
  unfold parseMP3FrameSize
  by_cases h1 : d.length < i + 4
  · rw [if_pos h1]
  · rw [if_neg h1]
    rw [if_neg (show ¬ i + 1 ≥ d.length by omega)] at h
    have hcond : ¬ (byteAt d i = 0xFF ∧ byteAt d (i + 1) &&& 0xE0 = 0xE0) := by
      rintro ⟨ha, hb⟩
      simp [ha, hb] at h
    rw [if_pos hcond]

theorem specScanLoop_tail (d : List Nat) :
    ∀ fuel i, d.length ≤ i + 4 → specScanLoop d i fuel = [] := by
  intro fuel
  induction fuel with
  | zero =>
      intro i _
      rfl
  | succ f ih =>
      intro i h
      unfold specScanLoop
      by_cases hi : i < d.length
      · rw [if_pos hi]
        have hz : parseMP3FrameSize d i = 0 := by
          rcases parseMP3FrameSize_cases d i with h0 | ⟨h24, hle⟩
          · exact h0
          · omega
        rw [if_pos hz]
        exact ih (i + 1) (by omega)
      · rw [if_neg hi]

theorem collectLoop_eq_specScanLoop (d : List Nat) :
    ∀ fuel i, collectLoop d i fuel = specScanLoop d i fuel := by
  intro fuel
  induction fuel with
  | zero =>
      intro i
      rfl
  | succ f ih =>
      intro i
      unfold collectLoop specScanLoop
      by_cases hg : i < d.length - 4
      · rw [if_pos hg, if_pos (show i < d.length by omega)]
        by_cases hs : isFrameSyncAt d i = true
        · rw [if_neg (not_not_intro hs)]
          by_cases hsize : parseMP3FrameSize d i ≤ 4
          · rw [if_pos hsize]
            have hz : parseMP3FrameSize d i = 0 := by
              rcases parseMP3FrameSize_cases d i with h0 | ⟨h24, _⟩
              · exact h0
              · omega
            rw [if_pos hz]
            exact ih (i + 1)
          · rw [if_neg hsize]
            rw [if_neg (show ¬ parseMP3FrameSize d i = 0 by omega)]
            rcases parseMP3FrameSize_cases d i with h0 | ⟨h24, hle⟩
            · omega
            · have hcount : min (i + parseMP3FrameSize d i) d.length - (i + 4) =
                  parseMP3FrameSize d i - 4 := by
                rw [min_eq_left hle]
                omega
              rw [hcount, ih]
        · rw [if_pos hs]
          have hz := parseMP3FrameSize_of_not_sync d i (by simpa using hs)
          rw [if_pos hz]
          exact ih (i + 1)
      · rw [if_neg hg]
        by_cases hi : i < d.length
        · rw [if_pos hi]
          have hz : parseMP3FrameSize d i = 0 := by
            rcases parseMP3FrameSize_cases d i with h0 | ⟨h24, hle⟩
            · exact h0
            · omega
          rw [if_pos hz]
          exact (specScanLoop_tail d f (i + 1) (by omega)).symm
        · rw [if_neg hi]

/-- C2 as stated fails on the code: the stego service has no PCM path,
so a RIFF/WAVE container recognized by the scanner (non-empty vector)
gets frame-scan indices, not the data chunk body.  The container wavEx
has its data chunk at bytes 20 to 55, yet the scanner emits only the
inter-header bytes 24 to 51 of the MP3 frame that happens to sit in
the chunk. -/
theorem payload_indices_pcm_cex :
    pcmDataIndices wavEx = some (List.range' 20 36) ∧
    (collectPayloadIndices wavEx).length ≠ 0 ∧
    collectPayloadIndices wavEx = List.range' 24 28 ∧
    collectPayloadIndices wavEx ≠ List.range' 20 36 := by decide

/-! ## Byte, bit-slot and list-update lemmas for the embedding loops -/

theorem byteAt_set_ne (l : List Nat) (i q a : Nat) (h : i ≠ q) :
    byteAt (l.set i a) q = byteAt l q := by
  unfold byteAt
  rw [List.getD_eq_getElem?_getD, List.getD_eq_getElem?_getD, List.getElem?_set_ne h]

theorem byteAt_set_eq (l : List Nat) (i a : Nat) (h : i < l.length) :
    byteAt (l.set i a) i = a := by
  unfold byteAt
  rw [List.getD_eq_getElem?_getD, List.getElem?_set_self', List.getElem?_eq_getElem h]
  rfl

theorem getD_mem_of_lt {α : Type} (l : List α) (j : Nat) (d : α) (h : j < l.length) :
    l.getD j d ∈ l := by
  rw [List.getD_eq_getElem _ _ h]
  exact List.getElem_mem _

theorem byteAt_lt_of_bytes (l : List Nat) (q : Nat) (hb : ∀ b ∈ l, b < 256)
    (hq : q < l.length) : byteAt l q < 256 :=
  hb _ (getD_mem_of_lt l q 0 hq)

theorem pairwise_getD_inj (p : List Nat) (hp : List.Pairwise (· < ·) p)
    (i j : Nat) (hi : i < p.length) (hj : j < p.length)
    (h : p.getD i 0 = p.getD j 0) : i = j := by
  rw [List.getD_eq_getElem _ _ hi, List.getD_eq_getElem _ _ hj] at h
  rcases Nat.lt_trichotomy i j with hlt | heq | hgt
  · have := (List.pairwise_iff_getElem.mp hp) i j hi hj hlt
    omega
  · exact heq
  · have := (List.pairwise_iff_getElem.mp hp) j i hj hi hgt
    omega

theorem bitGet_eq_testBit (b s : Nat) : bitGet b s = if b.testBit s then 1 else 0 := by
  rw [bitGet, Nat.and_one_is_mod, Nat.shiftRight_eq_div_pow, Nat.testBit_to_div_mod]
  rcases Nat.mod_two_eq_zero_or_one (b / 2 ^ s) with h | h <;> simp [h]

theorem bitGet_of_lt (b s : Nat) (hb : b < 256) (hs : 8 ≤ s) : bitGet b s = 0 := by
  rw [bitGet_eq_testBit, Nat.testBit_lt_two_pow, if_neg Bool.false_ne_true]
  calc b < 256 := hb
    _ = 2 ^ 8 := by norm_num
    _ ≤ 2 ^ s := Nat.pow_le_pow_right (by norm_num) hs

theorem mask255_testBit (slot s : Nat) :
    (255 ^^^ (1 <<< slot)).testBit s = (decide (s < 8) ^^ decide (slot = s)) := by
  rw [Nat.testBit_xor, Nat.one_shiftLeft, Nat.testBit_two_pow,
    show (255 : Nat) = 2 ^ 8 - 1 by norm_num, Nat.testBit_two_pow_sub_one]

theorem setLsbSlot_bitGet_self (b slot bit : Nat) (hslot : slot < 8) (hb : b < 256) :
    bitGet (setLsbSlot b slot bit) slot = if bit = 1 then 1 else 0 := by
  unfold setLsbSlot
  by_cases hbit : bit = 1
  · rw [if_pos hbit, if_pos hbit, bitGet_eq_testBit]
    have ht : (b ||| 1 <<< slot).testBit slot = true := by
      rw [Nat.testBit_or, Nat.one_shiftLeft, Nat.testBit_two_pow]
      simp
    rw [ht, if_pos rfl]
  · rw [if_neg hbit, if_neg hbit, bitGet_eq_testBit]
    have ht : (b &&& (255 ^^^ 1 <<< slot)).testBit slot = false := by
      rw [Nat.testBit_and, mask255_testBit]
      simp [hslot]
    rw [ht, if_neg Bool.false_ne_true]

theorem setLsbSlot_bitGet_other (b slot bit s : Nat) (hslot : slot < 8) (hb : b < 256)
    (hne : s ≠ slot) : bitGet (setLsbSlot b slot bit) s = bitGet b s := by
  unfold setLsbSlot
  by_cases hbit : bit = 1
  · rw [if_pos hbit, bitGet_eq_testBit, bitGet_eq_testBit]
    have ht : (b ||| 1 <<< slot).testBit s = b.testBit s := by
      rw [Nat.testBit_or, Nat.one_shiftLeft, Nat.testBit_two_pow]
      simp [Ne.symm hne]
    rw [ht]
  · rw [if_neg hbit, bitGet_eq_testBit, bitGet_eq_testBit]
    by_cases hs8 : s < 8
    · have ht : (b &&& (255 ^^^ 1 <<< slot)).testBit s = b.testBit s := by
        rw [Nat.testBit_and, mask255_testBit]
        simp [Ne.symm hne, hs8]
      rw [ht]
    · have hbs : b.testBit s = false := by
        apply Nat.testBit_lt_two_pow
        calc b < 256 := hb
          _ = 2 ^ 8 := by norm_num
          _ ≤ 2 ^ s := Nat.pow_le_pow_right (by norm_num) (by omega)
      have ht : (b &&& (255 ^^^ 1 <<< slot)).testBit s = false := by
        rw [Nat.testBit_and, hbs]
        rfl
      rw [ht, hbs]

theorem setLsbSlot_lt_256 (b slot bit : Nat) (hb : b < 256) (hslot : slot < 8) :
    setLsbSlot b slot bit < 256 := by
  unfold setLsbSlot
  by_cases hbit : bit = 1
  · rw [if_pos hbit]
    have h1 : (1 <<< slot) < 256 := by
      rw [Nat.one_shiftLeft]
      calc 2 ^ slot < 2 ^ 8 := Nat.pow_lt_pow_right (by norm_num) hslot
        _ = 256 := by norm_num
    have := Nat.or_lt_two_pow (n := 8) (by simpa using hb) (by simpa using h1)
    simpa using this
  · rw [if_neg hbit]
    have := Nat.and_lt_two_pow (n := 8) b (y := 255 ^^^ (1 <<< slot)) ?_
    · simpa using this
    · have h1 : (1 <<< slot) < 256 := by
        rw [Nat.one_shiftLeft]
        calc 2 ^ slot < 2 ^ 8 := Nat.pow_lt_pow_right (by norm_num) hslot
          _ = 256 := by norm_num
      have := Nat.xor_lt_two_pow (n := 8) (x := 255) (y := 1 <<< slot) (by norm_num)
        (by simpa using h1)
      simpa using this

/-! ## Effect of the embedding loops -/

theorem lsbEmbedLoop_length (p : List Nat) (n c : Nat) :
    ∀ B cover bp, (lsbEmbedLoop p n c cover B bp).length = cover.length := by
  intro B
  induction B with
  | nil =>
      intro cover bp
      rfl
  | cons bit rest ih =>
      intro cover bp
      rw [lsbEmbedLoop, ih, List.length_set]

theorem lsbEmbedLoop_byteAt_not_mem (p : List Nat) (n c : Nat) (hn : 0 < n)
    (hc : c = p.length * n) (hcpos : 0 < c) (q : Nat) (hq : q ∉ p) :
    ∀ B cover bp, byteAt (lsbEmbedLoop p n c cover B bp) q = byteAt cover q := by
  intro B
  induction B with
  | nil =>
      intro cover bp
      rfl
  | cons bit rest ih =>
      intro cover bp
      rw [lsbEmbedLoop, ih]
      have hbp : (if c ≤ bp then 0 else bp) < c := by
        split <;> omega
      have hidx : (if c ≤ bp then 0 else bp) / n < p.length := by
        rw [Nat.div_lt_iff_lt_mul hn]
        omega
      have hpos : p.getD ((if c ≤ bp then 0 else bp) / n) 0 ∈ p :=
        getD_mem_of_lt _ _ _ hidx
      exact byteAt_set_ne _ _ _ _ (fun h => hq (h ▸ hpos))

theorem lsbEmbedLoop_bitGet (p : List Nat) (n c : Nat)
    (hn : 0 < n) (hn8 : n ≤ 8) (hc : c = p.length * n)
    (hp : List.Pairwise (· < ·) p) :
    ∀ B cover bp, bp + B.length ≤ c →
      (∀ x ∈ p, x < cover.length) →
      (∀ b ∈ cover, b < 256) →
      ∀ j, j < p.length → ∀ s, s < n →
        bitGet (byteAt (lsbEmbedLoop p n c cover B bp) (p.getD j 0)) s =
          if bp ≤ j * n + s ∧ j * n + s < bp + B.length
          then (if B.getD (j * n + s - bp) 0 = 1 then 1 else 0)
          else bitGet (byteAt cover (p.getD j 0)) s := by
  intro B
  induction B with
  | nil =>
      intro cover bp hfit hx hbytes j hj s hs
      rw [if_neg (show ¬ (bp ≤ j * n + s ∧ j * n + s < bp + ([] : List Nat).length) by
        simp only [List.length_nil]
        omega)]
      rfl
  | cons bit rest ih =>
      intro cover bp hfit hx hbytes j hj s hs
      have hbplt : bp < c := by
        simp only [List.length_cons] at hfit
        omega
      rw [lsbEmbedLoop, if_neg (show ¬ c ≤ bp by omega)]
      have hidx : bp / n < p.length := by
        rw [Nat.div_lt_iff_lt_mul hn]
        omega
      have hposmem : p.getD (bp / n) 0 ∈ p := getD_mem_of_lt _ _ _ hidx
      have hposlt : p.getD (bp / n) 0 < cover.length := hx _ hposmem
      have hcoverpos : byteAt cover (p.getD (bp / n) 0) < 256 :=
        byteAt_lt_of_bytes _ _ hbytes hposlt
      have hslot8 : bp % n < 8 := lt_of_lt_of_le (Nat.mod_lt _ hn) hn8
      have hset := ih (cover.set (p.getD (bp / n) 0)
          (setLsbSlot (byteAt cover (p.getD (bp / n) 0)) (bp % n) bit)) (bp + 1)
        (by simp only [List.length_cons] at hfit; omega)
        (by
          intro x hxp
          rw [List.length_set]
          exact hx x hxp)
        (by
          intro b hbmem
          rcases List.mem_or_eq_of_mem_set hbmem with hmem | heq
          · exact hbytes b hmem
          · rw [heq]
            exact setLsbSlot_lt_256 _ _ _ hcoverpos hslot8)
        j hj s hs
      rw [hset]
      by_cases htgt : j * n + s = bp
      · have hjn : (j * n + s) / n = j := by
          rw [Nat.add_comm, Nat.add_mul_div_right _ _ hn, Nat.div_eq_of_lt hs,
            Nat.zero_add]
        have hsn : (j * n + s) % n = s := by
          rw [Nat.add_comm, Nat.add_mul_mod_self_right, Nat.mod_eq_of_lt hs]
        have hjeq : bp / n = j := by rw [← htgt, hjn]
        have hseq : bp % n = s := by rw [← htgt, hsn]
        rw [if_neg (show ¬ (bp + 1 ≤ j * n + s ∧ j * n + s < bp + 1 + rest.length) by omega),
          if_pos (show bp ≤ j * n + s ∧ j * n + s < bp + (bit :: rest).length by
            simp only [List.length_cons]
            omega)]
        rw [hjeq] at hposlt
        rw [hjeq, hseq, byteAt_set_eq _ _ _ hposlt]
        rw [hseq] at hslot8
        rw [hjeq] at hcoverpos
        rw [setLsbSlot_bitGet_self _ _ _ hslot8 hcoverpos]
        have h0 : j * n + s - bp = 0 := by omega
        rw [h0]
        rfl
      · by_cases hin : bp + 1 ≤ j * n + s ∧ j * n + s < bp + 1 + rest.length
        · rw [if_pos hin,
            if_pos (show bp ≤ j * n + s ∧ j * n + s < bp + (bit :: rest).length by
              simp only [List.length_cons]
              omega)]
          have hk : j * n + s - bp = (j * n + s - (bp + 1)) + 1 := by omega
          rw [hk, List.getD_cons_succ]
        · rw [if_neg hin,
            if_neg (show ¬ (bp ≤ j * n + s ∧ j * n + s < bp + (bit :: rest).length) by
              simp only [List.length_cons]
              omega)]
          by_cases hsame : p.getD j 0 = p.getD (bp / n) 0
          · have hjeq : j = bp / n := pairwise_getD_inj p hp j (bp / n) hj hidx hsame
            have hsne : s ≠ bp % n := by
              intro hseq
              apply htgt
              rw [hjeq, hseq]
              exact Nat.div_add_mod' bp n
            rw [hsame, byteAt_set_eq _ _ _ hposlt,
              setLsbSlot_bitGet_other _ _ _ _ hslot8 hcoverpos hsne]
          · rw [byteAt_set_ne _ _ _ _ (fun h => hsame h.symm)]

theorem parityEmbedLoop_length (p : List Nat) (c : Nat) :
    ∀ B cover bp, (parityEmbedLoop p c cover B bp).length = cover.length := by
  intro B
  induction B with
  | nil =>
      intro cover bp
      rfl
  | cons bit rest ih =>
      intro cover bp
      rw [parityEmbedLoop, ih, List.length_set]

theorem parityEmbedLoop_byteAt_not_mem (p : List Nat) (c : Nat)
    (hc : c = p.length) (hcpos : 0 < c) (q : Nat) (hq : q ∉ p) :
    ∀ B cover bp, byteAt (parityEmbedLoop p c cover B bp) q = byteAt cover q := by
  intro B
  induction B with
  | nil =>
      intro cover bp
      rfl
  | cons bit rest ih =>
      intro cover bp
      rw [parityEmbedLoop, ih]
      have hbp : (if c ≤ bp then 0 else bp) < c := by
        split <;> omega
      have hpos : p.getD (if c ≤ bp then 0 else bp) 0 ∈ p :=
        getD_mem_of_lt _ _ _ (by omega)
      exact byteAt_set_ne _ _ _ _ (fun h => hq (h ▸ hpos))

theorem parityEmbedLoop_byteAt (p : List Nat) (c : Nat)
    (hc : c = p.length) (hp : List.Pairwise (· < ·) p) :
    ∀ B cover bp, bp + B.length ≤ c →
      (∀ x ∈ p, x < cover.length) →
      ∀ j, j < p.length →
        byteAt (parityEmbedLoop p c cover B bp) (p.getD j 0) =
          if bp ≤ j ∧ j < bp + B.length
          then embedParityBit (byteAt cover (p.getD j 0)) (B.getD (j - bp) 0)
          else byteAt cover (p.getD j 0) := by
  intro B
  induction B with
  | nil =>
      intro cover bp hfit hx j hj
      rw [if_neg (show ¬ (bp ≤ j ∧ j < bp + ([] : List Nat).length) by
        simp only [List.length_nil]
        omega)]
      rfl
  | cons bit rest ih =>
      intro cover bp hfit hx j hj
      have hbplt : bp < c := by
        simp only [List.length_cons] at hfit
        omega
      rw [parityEmbedLoop, if_neg (show ¬ c ≤ bp by omega)]
      have hposmem : p.getD bp 0 ∈ p := getD_mem_of_lt _ _ _ (by omega)
      have hposlt : p.getD bp 0 < cover.length := hx _ hposmem
      have hset := ih (cover.set (p.getD bp 0)
          (embedParityBit (byteAt cover (p.getD bp 0)) bit)) (bp + 1)
        (by simp only [List.length_cons] at hfit; omega)
        (by
          intro x hxp
          rw [List.length_set]
          exact hx x hxp)
        j hj
      rw [hset]
      by_cases htgt : j = bp
      · subst htgt
        rw [if_neg (show ¬ (j + 1 ≤ j ∧ j < j + 1 + rest.length) by omega),
          if_pos (show j ≤ j ∧ j < j + (bit :: rest).length by
            simp only [List.length_cons]
            omega)]
        rw [byteAt_set_eq _ _ _ hposlt]
        have h0 : j - j = 0 := by omega
        rw [h0]
        rfl
      · by_cases hin : bp + 1 ≤ j ∧ j < bp + 1 + rest.length
        · rw [if_pos hin,
            if_pos (show bp ≤ j ∧ j < bp + (bit :: rest).length by
              simp only [List.length_cons]
              omega)]
          have hsame : p.getD j 0 ≠ p.getD bp 0 := by
            intro h
            exact htgt (pairwise_getD_inj p hp j bp hj (by omega) h)
          rw [byteAt_set_ne _ _ _ _ (fun h => hsame h.symm)]
          have hk : j - bp = (j - (bp + 1)) + 1 := by omega
          rw [hk, List.getD_cons_succ]
        · rw [if_neg hin,
            if_neg (show ¬ (bp ≤ j ∧ j < bp + (bit :: rest).length) by
              simp only [List.length_cons]
              omega)]
          have hsame : p.getD j 0 ≠ p.getD bp 0 := by
            intro h
            exact htgt (pairwise_getD_inj p hp j bp hj (by omega) h)
          rw [byteAt_set_ne _ _ _ _ (fun h => hsame h.symm)]

/-! ## Bounds, sortedness and stability of the scanner -/

theorem collectLoop_mem_bounds (d : List Nat) :
    ∀ fuel i, ∀ x ∈ collectLoop d i fuel, i + 4 ≤ x ∧ x < d.length := by
  intro fuel
  induction fuel with
  | zero =>
      intro i x hx
      simp [collectLoop] at hx
  | succ f ih =>
      intro i x hx
      rw [collectLoop] at hx
      by_cases hg : i < d.length - 4
      · rw [if_pos hg] at hx
        by_cases hs : isFrameSyncAt d i = true
        · rw [if_neg (not_not_intro hs)] at hx
          by_cases hsz : parseMP3FrameSize d i ≤ 4
          · rw [if_pos hsz] at hx
            have := ih (i + 1) x hx
            omega
          · rw [if_neg hsz] at hx
            rcases List.mem_append.mp hx with hr | ht
            · have hr2 := List.mem_range'_1.mp hr
              rcases Nat.le_total (i + parseMP3FrameSize d i) d.length with hle | hle
              · rw [min_eq_left hle] at hr2
                omega
              · rw [min_eq_right hle] at hr2
                omega
            · have := ih (i + parseMP3FrameSize d i) x ht
              omega
        · rw [if_pos hs] at hx
          have := ih (i + 1) x hx
          omega
      · rw [if_neg hg] at hx
        simp at hx

theorem collectLoop_pairwise (d : List Nat) :
    ∀ fuel i, List.Pairwise (· < ·) (collectLoop d i fuel) := by
  intro fuel
  induction fuel with
  | zero =>
      intro i
      exact List.Pairwise.nil
  | succ f ih =>
      intro i
      rw [collectLoop]
      by_cases hg : i < d.length - 4
      · rw [if_pos hg]
        by_cases hs : isFrameSyncAt d i = true
        · rw [if_neg (not_not_intro hs)]
          by_cases hsz : parseMP3FrameSize d i ≤ 4
          · rw [if_pos hsz]
            exact ih (i + 1)
          · rw [if_neg hsz]
            rw [List.pairwise_append]
            refine ⟨List.pairwise_lt_range' _ _, ih _, ?_⟩
            intro x hx y hy
            have hx2 := List.mem_range'_1.mp hx
            have hy2 := (collectLoop_mem_bounds d f (i + parseMP3FrameSize d i) y hy).1
            rcases Nat.le_total (i + parseMP3FrameSize d i) d.length with hle | hle
            · rw [min_eq_left hle] at hx2
              omega
            · rw [min_eq_right hle] at hx2
              omega
        · rw [if_pos hs]
          exact ih (i + 1)
      · rw [if_neg hg]
        exact List.Pairwise.nil

theorem isFrameSyncAt_congr (d d2 : List Nat) (i : Nat) (hlen : d2.length = d.length)
    (h0 : byteAt d2 i = byteAt d i) (h1 : byteAt d2 (i + 1) = byteAt d (i + 1)) :
    isFrameSyncAt d2 i = isFrameSyncAt d i := by
  unfold isFrameSyncAt
  rw [hlen, h0, h1]

theorem parseMP3FrameSize_congr (d d2 : List Nat) (i : Nat) (hlen : d2.length = d.length)
    (h0 : byteAt d2 i = byteAt d i) (h1 : byteAt d2 (i + 1) = byteAt d (i + 1))
    (h2 : byteAt d2 (i + 2) = byteAt d (i + 2)) :
    parseMP3FrameSize d2 i = parseMP3FrameSize d i := by
  unfold parseMP3FrameSize rawFrameSize bitrateOf srOf versionBitsAt layerBitsAt
    bitrateIdxAt srIdxAt paddingAt
  rw [hlen, h0, h1, h2]

theorem collectLoop_stable (d d2 : List Nat) (hlen : d2.length = d.length) :
    ∀ fuel i,
      (∀ q, i ≤ q → q ∉ collectLoop d i fuel → byteAt d2 q = byteAt d q) →
      collectLoop d2 i fuel = collectLoop d i fuel := by
  intro fuel
  induction fuel with
  | zero =>
      intro i _
      rfl
  | succ f ih =>
      intro i hagree
      have hb0 : byteAt d2 i = byteAt d i := by
        apply hagree i (le_refl i)
        intro hmem
        have := (collectLoop_mem_bounds d (f + 1) i i hmem).1
        omega
      have hb1 : byteAt d2 (i + 1) = byteAt d (i + 1) := by
        apply hagree (i + 1) (by omega)
        intro hmem
        have := (collectLoop_mem_bounds d (f + 1) i (i + 1) hmem).1
        omega
      have hb2 : byteAt d2 (i + 2) = byteAt d (i + 2) := by
        apply hagree (i + 2) (by omega)
        intro hmem
        have := (collectLoop_mem_bounds d (f + 1) i (i + 2) hmem).1
        omega
      have hsync := isFrameSyncAt_congr d d2 i hlen hb0 hb1
      have hparse := parseMP3FrameSize_congr d d2 i hlen hb0 hb1 hb2
      rw [collectLoop, collectLoop, hlen, hsync, hparse]
      by_cases hg : i < d.length - 4
      · rw [if_pos hg, if_pos hg]
        by_cases hs : isFrameSyncAt d i = true
        · rw [if_neg (not_not_intro hs), if_neg (not_not_intro hs)]
          by_cases hsz : parseMP3FrameSize d i ≤ 4
          · rw [if_pos hsz, if_pos hsz]
            apply ih (i + 1)
            intro q hq hqm
            apply hagree q (by omega)
            rw [collectLoop, if_pos hg, if_neg (not_not_intro hs), if_pos hsz]
            exact hqm
          · rw [if_neg hsz, if_neg hsz]
            have htail : ∀ q, i + parseMP3FrameSize d i ≤ q →
                q ∉ collectLoop d (i + parseMP3FrameSize d i) f →
                byteAt d2 q = byteAt d q := by
              intro q hq hqm
              apply hagree q (by omega)
              rw [collectLoop, if_pos hg, if_neg (not_not_intro hs), if_neg hsz]
              intro hmem
              rcases List.mem_append.mp hmem with hr | ht
              · have hr2 := List.mem_range'_1.mp hr
                have : q < min (i + parseMP3FrameSize d i) d.length := by omega
                have : q < i + parseMP3FrameSize d i := lt_of_lt_of_le this (min_le_left _ _)
                omega
              · exact hqm ht
            rw [ih (i + parseMP3FrameSize d i) htail]
        · rw [if_pos hs, if_pos hs]
          apply ih (i + 1)
          intro q hq hqm
          apply hagree q (by omega)
          rw [collectLoop, if_pos hg, if_pos hs]
          exact hqm
      · rw [if_neg hg, if_neg hg]

theorem frameStartsLoop_lb (d : List Nat) :
    ∀ fuel i, ∀ fs ∈ frameStartsLoop d i fuel, i ≤ fs := by
  intro fuel
  induction fuel with
  | zero =>
      intro i fs hfs
      simp [frameStartsLoop] at hfs
  | succ f ih =>
      intro i fs hfs
      rw [frameStartsLoop] at hfs
      by_cases hg : i < d.length - 4
      · rw [if_pos hg] at hfs
        by_cases hs : isFrameSyncAt d i = true
        · rw [if_neg (not_not_intro hs)] at hfs
          by_cases hsz : parseMP3FrameSize d i ≤ 4
          · rw [if_pos hsz] at hfs
            have := ih (i + 1) fs hfs
            omega
          · rw [if_neg hsz] at hfs
            rcases List.mem_cons.mp hfs with heq | ht
            · omega
            · have := ih (i + parseMP3FrameSize d i) fs ht
              omega
        · rw [if_pos hs] at hfs
          have := ih (i + 1) fs hfs
          omega
      · rw [if_neg hg] at hfs
        simp at hfs

theorem frameStartsLoop_disjoint (d : List Nat) :
    ∀ fuel i, ∀ fs ∈ frameStartsLoop d i fuel, ∀ x ∈ collectLoop d i fuel,
      x < fs ∨ fs + 4 ≤ x := by
  intro fuel
  induction fuel with
  | zero =>
      intro i fs hfs
      simp [frameStartsLoop] at hfs
  | succ f ih =>
      intro i fs hfs x hx
      rw [frameStartsLoop] at hfs
      rw [collectLoop] at hx
      by_cases hg : i < d.length - 4
      · rw [if_pos hg] at hfs hx
        by_cases hs : isFrameSyncAt d i = true
        · rw [if_neg (not_not_intro hs)] at hfs hx
          by_cases hsz : parseMP3FrameSize d i ≤ 4
          · rw [if_pos hsz] at hfs hx
            exact ih (i + 1) fs hfs x hx
          · rw [if_neg hsz] at hfs hx
            rcases List.mem_cons.mp hfs with heq | hft
            · subst heq
              right
              rcases List.mem_append.mp hx with hr | ht
              · have := (List.mem_range'_1.mp hr).1
                omega
              · have := (collectLoop_mem_bounds d f (fs + parseMP3FrameSize d fs) x ht).1
                omega
            · have hfs2 := frameStartsLoop_lb d f (i + parseMP3FrameSize d i) fs hft
              rcases List.mem_append.mp hx with hr | ht
              · left
                have hr2 := List.mem_range'_1.mp hr
                have : x < min (i + parseMP3FrameSize d i) d.length := by omega
                have : x < i + parseMP3FrameSize d i := lt_of_lt_of_le this (min_le_left _ _)
                omega
              · exact ih (i + parseMP3FrameSize d i) fs hft x ht
        · rw [if_pos hs] at hfs hx
          exact ih (i + 1) fs hfs x hx
      · rw [if_neg hg] at hfs
        simp at hfs

/-! ## Bit-stream lemmas for extraction -/

theorem rotateBits_zero (bits : List Nat) : rotateBits bits 0 = bits := by
  apply List.ext_getElem
  · simp [rotateBits]
  · intro i h1 h2
    simp only [rotateBits, List.getElem_map, List.getElem_range]
    rw [Nat.zero_add, Nat.mod_eq_of_lt (by simpa [rotateBits] using h2)]
    exact List.getD_eq_getElem _ _ _

theorem byteFromBits_nil : byteFromBits [] = 0 := rfl

theorem bitsToBytes_getD :
    ∀ S : List Nat, ∀ j, (bitsToBytes S).getD j 0 = byteFromBits ((S.drop (8 * j)).take 8)
  | [], j => by
      cases j <;> simp [bitsToBytes, byteFromBits]
  | b0 :: b1 :: b2 :: b3 :: b4 :: b5 :: b6 :: b7 :: rest, j => by
      cases j with
      | zero => rfl
      | succ j2 =>
          have ih := bitsToBytes_getD rest j2
          show (byteFromBits [b0, b1, b2, b3, b4, b5, b6, b7] ::
            bitsToBytes rest).getD (j2 + 1) 0 = _
          rw [List.getD_cons_succ, ih]
          have hd : (b0 :: b1 :: b2 :: b3 :: b4 :: b5 :: b6 :: b7 :: rest).drop
              (8 * (j2 + 1)) = rest.drop (8 * j2) := by
            rw [show 8 * (j2 + 1) = 8 + 8 * j2 by ring, List.drop_add 8 (8 * j2)]
            rfl
          rw [hd]
  | [b0], j => by
      cases j with
      | zero => rfl
      | succ j2 =>
          rw [show bitsToBytes [b0] = [byteFromBits [b0]] from rfl, List.getD_cons_succ]
          rw [List.drop_eq_nil_of_le (by simp; omega)]
          simp [byteFromBits]
  | [b0, b1], j => by
      cases j with
      | zero => rfl
      | succ j2 =>
          rw [show bitsToBytes [b0, b1] = [byteFromBits [b0, b1]] from rfl,
            List.getD_cons_succ]
          rw [List.drop_eq_nil_of_le (by simp; omega)]
          simp [byteFromBits]
  | [b0, b1, b2], j => by
      cases j with
      | zero => rfl
      | succ j2 =>
          rw [show bitsToBytes [b0, b1, b2] = [byteFromBits [b0, b1, b2]] from rfl,
            List.getD_cons_succ]
          rw [List.drop_eq_nil_of_le (by simp; omega)]
          simp [byteFromBits]
  | [b0, b1, b2, b3], j => by
      cases j with
      | zero => rfl
      | succ j2 =>
          rw [show bitsToBytes [b0, b1, b2, b3] = [byteFromBits [b0, b1, b2, b3]] from rfl,
            List.getD_cons_succ]
          rw [List.drop_eq_nil_of_le (by simp; omega)]
          simp [byteFromBits]
  | [b0, b1, b2, b3, b4], j => by
      cases j with
      | zero => rfl
      | succ j2 =>
          rw [show bitsToBytes [b0, b1, b2, b3, b4] =
            [byteFromBits [b0, b1, b2, b3, b4]] from rfl, List.getD_cons_succ]
          rw [List.drop_eq_nil_of_le (by simp; omega)]
          simp [byteFromBits]
  | [b0, b1, b2, b3, b4, b5], j => by
      cases j with
      | zero => rfl
      | succ j2 =>
          rw [show bitsToBytes [b0, b1, b2, b3, b4, b5] =
            [byteFromBits [b0, b1, b2, b3, b4, b5]] from rfl, List.getD_cons_succ]
          rw [List.drop_eq_nil_of_le (by simp; omega)]
          simp [byteFromBits]
  | [b0, b1, b2, b3, b4, b5, b6], j => by
      cases j with
      | zero => rfl
      | succ j2 =>
          rw [show bitsToBytes [b0, b1, b2, b3, b4, b5, b6] =
            [byteFromBits [b0, b1, b2, b3, b4, b5, b6]] from rfl, List.getD_cons_succ]
          rw [List.drop_eq_nil_of_le (by simp; omega)]
          simp [byteFromBits]

theorem length_bitsToBytes :
    ∀ S : List Nat, (bitsToBytes S).length = (S.length + 7) / 8
  | [] => rfl
  | b0 :: b1 :: b2 :: b3 :: b4 :: b5 :: b6 :: b7 :: rest => by
      have ih := length_bitsToBytes rest
      show (byteFromBits [b0, b1, b2, b3, b4, b5, b6, b7] :: bitsToBytes rest).length = _
      rw [List.length_cons, ih]
      simp only [List.length_cons]
      omega
  | [b0] => by simp [bitsToBytes]
  | [b0, b1] => by simp [bitsToBytes]
  | [b0, b1, b2] => by simp [bitsToBytes]
  | [b0, b1, b2, b3] => by simp [bitsToBytes]
  | [b0, b1, b2, b3, b4] => by simp [bitsToBytes]
  | [b0, b1, b2, b3, b4, b5] => by simp [bitsToBytes]
  | [b0, b1, b2, b3, b4, b5, b6] => by simp [bitsToBytes]

theorem drop_take_getD (S : List Nat) (a t j : Nat) (hj : j < t) :
    ((S.drop a).take t).getD j 0 = S.getD (a + j) 0 := by
  rw [List.getD_eq_getElem?_getD, List.getD_eq_getElem?_getD, List.getElem?_take,
    if_pos hj, List.getElem?_drop]

theorem byteFromBits_congr (bs1 bs2 : List Nat)
    (h : ∀ j, j < 8 → bs1.getD j 0 = bs2.getD j 0) : byteFromBits bs1 = byteFromBits bs2 := by
  unfold byteFromBits
  rw [show List.range 8 = [0, 1, 2, 3, 4, 5, 6, 7] from rfl]
  simp only [List.foldl_cons, List.foldl_nil, h 0 (by omega), h 1 (by omega),
    h 2 (by omega), h 3 (by omega), h 4 (by omega), h 5 (by omega), h 6 (by omega),
    h 7 (by omega)]

theorem byteFromBits_bitsOfByte_all : ∀ b, b < 256 → byteFromBits (bitsOfByte b) = b := by
  decide

theorem bytesToBits_append (M T : List Nat) :
    bytesToBits (M ++ T) = bytesToBits M ++ bytesToBits T := by
  unfold bytesToBits
  rw [List.flatMap_append]

theorem bytesToBits_le_one (M : List Nat) : ∀ x ∈ bytesToBits M, x ≤ 1 := by
  intro x hx
  unfold bytesToBits at hx
  rcases List.mem_flatMap.mp hx with ⟨b, _, hb⟩
  unfold bitsOfByte at hb
  rcases List.mem_map.mp hb with ⟨j, _, hj⟩
  rw [← hj, Nat.and_one_is_mod]
  omega

theorem getD_le_one_collapse (L : List Nat) (r : Nat) (hle : ∀ x ∈ L, x ≤ 1) :
    (if L.getD r 0 = 1 then 1 else 0) = L.getD r 0 := by
  by_cases hr : r < L.length
  · have := hle _ (getD_mem_of_lt L r 0 hr)
    interval_cases h : L.getD r 0 <;> simp
  · rw [List.getD_eq_default _ _ (by omega)]
    simp

theorem bitsOfByte_explicit (b : Nat) :
    bitsOfByte b = [(b >>> 7) &&& 1, (b >>> 6) &&& 1, (b >>> 5) &&& 1, (b >>> 4) &&& 1,
      (b >>> 3) &&& 1, (b >>> 2) &&& 1, (b >>> 1) &&& 1, (b >>> 0) &&& 1] := rfl

theorem bitsToBytes_bytesToBits_append (M T : List Nat) (hM : ∀ b ∈ M, b < 256) :
    bitsToBytes (bytesToBits M ++ T) = M ++ bitsToBytes T := by
  induction M with
  | nil => rfl
  | cons b M2 ih =>
      have hb : b < 256 := hM b (List.mem_cons_self _ _)
      rw [bytesToBits_cons, List.append_assoc]
      rw [bitsOfByte_explicit]
      show byteFromBits [(b >>> 7) &&& 1, (b >>> 6) &&& 1, (b >>> 5) &&& 1,
          (b >>> 4) &&& 1, (b >>> 3) &&& 1, (b >>> 2) &&& 1, (b >>> 1) &&& 1,
          (b >>> 0) &&& 1] :: bitsToBytes (bytesToBits M2 ++ T) = _
      rw [ih (fun x hx => hM x (List.mem_cons_of_mem _ hx))]
      rw [← bitsOfByte_explicit, byteFromBits_bitsOfByte_all b hb]
      rfl

theorem prefix_append_drop (S L : List Nat) (hlen : L.length ≤ S.length)
    (hpre : ∀ r, r < L.length → S.getD r 0 = L.getD r 0) :
    S = L ++ S.drop L.length := by
  apply List.ext_getElem
  · simp
    omega
  · intro i h1 h2
    by_cases hi : i < L.length
    · rw [List.getElem_append_left hi]
      have := hpre i hi
      rw [List.getD_eq_getElem _ _ h1, List.getD_eq_getElem _ _ hi] at this
      exact this
    · rw [List.getElem_append_right (by omega)]
      rw [List.getElem_drop]
      congr 1
      omega

theorem lsbBitsFor_length (cover p : List Nat) (n : Nat) :
    (lsbBitsFor cover p n).length = p.length * n := by
  induction p with
  | nil => simp [lsbBitsFor]
  | cons idx rest ih =>
      unfold lsbBitsFor at ih ⊢
      rw [List.flatMap_cons, List.length_append, ih]
      simp only [List.length_map, List.length_range, List.length_cons]
      ring

theorem lsbBitsFor_getD (cover : List Nat) (n : Nat) (hn : 0 < n) :
    ∀ p r, r < p.length * n →
      (lsbBitsFor cover p n).getD r 0 = bitGet (byteAt cover (p.getD (r / n) 0)) (r % n) := by
  intro p
  induction p with
  | nil =>
      intro r hr
      simp at hr
  | cons idx rest ih =>
      intro r hr
      unfold lsbBitsFor
      rw [List.flatMap_cons]
      by_cases hrn : r < n
      · rw [List.getD_eq_getElem?_getD, List.getElem?_append_left (by simp; omega)]
        rw [List.getElem?_map, List.getElem?_range hrn]
        rw [Nat.div_eq_of_lt hrn, Nat.mod_eq_of_lt hrn]
        rfl
      · obtain ⟨k, rfl⟩ : ∃ k, r = k + n := ⟨r - n, by omega⟩
        rw [List.getD_eq_getElem?_getD, List.getElem?_append_right (by simp)]
        have hlen2 : ((List.range n).map
            (fun slot => byteAt cover idx >>> slot &&& 1)).length = n := by simp
        rw [hlen2]
        simp only [Nat.add_sub_cancel]
        have ih2 := ih k (by
          simp only [List.length_cons] at hr
          have hsm : (rest.length + 1) * n = rest.length * n + n := by ring
          omega)
        unfold lsbBitsFor at ih2
        rw [List.getD_eq_getElem?_getD] at ih2
        rw [ih2, Nat.add_div_right _ hn, Nat.add_mod_right, List.getD_cons_succ]

theorem parityBitsFor_length (cover p : List Nat) :
    (parityBitsFor cover p).length = p.length := by
  simp [parityBitsFor]

theorem parityBitsFor_getD (cover p : List Nat) (j : Nat) (hj : j < p.length) :
    (parityBitsFor cover p).getD j 0 = extractParityBit (byteAt cover (p.getD j 0)) := by
  unfold parityBitsFor
  rw [List.getD_eq_getElem _ _ (by simpa using hj), List.getElem_map,
    List.getD_eq_getElem _ _ hj]

/-! ## Reading the frame back from the reassembled byte stream -/

theorem byteAt_append_left (l l2 : List Nat) (o : Nat) (h : o < l.length) :
    byteAt (l ++ l2) o = byteAt l o := by
  unfold byteAt
  rw [List.getD_eq_getElem?_getD, List.getD_eq_getElem?_getD,
    List.getElem?_append_left h]

theorem byteAt_append_right (l l2 : List Nat) (o : Nat) (h : l.length ≤ o) :
    byteAt (l ++ l2) o = byteAt l2 (o - l.length) := by
  unfold byteAt
  rw [List.getD_eq_getElem?_getD, List.getD_eq_getElem?_getD,
    List.getElem?_append_right h]

theorem and255_eq_mod (x : Nat) : x &&& 255 = x % 256 := by
  have := Nat.and_pow_two_sub_one_eq_mod x 8
  norm_num at this
  exact this

theorem be16_read (x : Nat) (hx : x ≤ 65535) :
    ((x >>> 8) &&& 255) * 256 + (x &&& 255) = x := by
  rw [and255_eq_mod, and255_eq_mod, Nat.shiftRight_eq_div_pow]
  norm_num
  omega

theorem be32_read (x : Nat) (hx : x < 4294967296) :
    ((((x >>> 24) &&& 255) * 256 + ((x >>> 16) &&& 255)) * 256 + ((x >>> 8) &&& 255)) * 256 +
      (x &&& 255) = x := by
  rw [and255_eq_mod, and255_eq_mod, and255_eq_mod, and255_eq_mod,
    Nat.shiftRight_eq_div_pow, Nat.shiftRight_eq_div_pow, Nat.shiftRight_eq_div_pow]
  norm_num
  omega

theorem buildFrame_length (req : EmbedRequest) (secret metadata : List Nat) :
    (buildFrame req secret metadata).length =
      19 + (effectiveName req.secretFileName).length + metadata.length +
        (secretToStoreOf req secret).length := by
  simp [buildFrame, magicBytes, be16, be32]
  ring

theorem byteAt_drop_add (l : List Nat) (o j : Nat) : byteAt (l.drop o) j = byteAt l (o + j) := by
  unfold byteAt
  rw [List.getD_eq_getElem?_getD, List.getD_eq_getElem?_getD, List.getElem?_drop]

theorem readBE16_eq_drop (raw : List Nat) (o : Nat) :
    readBE16 raw o = readBE16 (raw.drop o) 0 := by
  unfold readBE16
  rw [byteAt_drop_add raw o 0, byteAt_drop_add raw o 1]
  norm_num

theorem readBE32_eq_drop (raw : List Nat) (o : Nat) :
    readBE32 raw o = readBE32 (raw.drop o) 0 := by
  unfold readBE32
  rw [byteAt_drop_add raw o 0, byteAt_drop_add raw o 1, byteAt_drop_add raw o 2,
    byteAt_drop_add raw o 3]
  norm_num

theorem frame_fields (req : EmbedRequest) (secret metadata rest : List Nat)
    (hfn : (effectiveName req.secretFileName).length ≤ 65535)
    (hml : metadata.length ≤ 65535)
    (hsl : (secretToStoreOf req secret).length < 4294967296) :
    (buildFrame req secret metadata ++ rest).take 8 = magicBytes ∧
    byteAt (buildFrame req secret metadata ++ rest) 8 = methodByte req.method ∧
    byteAt (buildFrame req secret metadata ++ rest) 9 = nLsbByteOf req ∧
    byteAt (buildFrame req secret metadata ++ rest) 10 = flagsByte req ∧
    readBE16 (buildFrame req secret metadata ++ rest) 11 =
      (effectiveName req.secretFileName).length ∧
    readBE32 (buildFrame req secret metadata ++ rest) 13 =
      (secretToStoreOf req secret).length ∧
    ((buildFrame req secret metadata ++ rest).drop 17).take
      (effectiveName req.secretFileName).length = effectiveName req.secretFileName ∧
    readBE16 (buildFrame req secret metadata ++ rest)
      (17 + (effectiveName req.secretFileName).length) = metadata.length ∧
    ((buildFrame req secret metadata ++ rest).drop
        (17 + (effectiveName req.secretFileName).length + 2 + metadata.length)).take
      (secretToStoreOf req secret).length = secretToStoreOf req secret := by
  have hsplit8 : buildFrame req secret metadata ++ rest =
      magicBytes ++ ([methodByte req.method, nLsbByteOf req, flagsByte req] ++
        (be16 (effectiveName req.secretFileName).length ++
          (be32 (secretToStoreOf req secret).length ++
            (effectiveName req.secretFileName ++
              (be16 metadata.length ++
                (metadata ++ (secretToStoreOf req secret ++ rest))))))) := by
    simp [buildFrame, List.append_assoc]
  have hsplit11 : buildFrame req secret metadata ++ rest =
      (magicBytes ++ [methodByte req.method, nLsbByteOf req, flagsByte req]) ++
        (be16 (effectiveName req.secretFileName).length ++
          (be32 (secretToStoreOf req secret).length ++
            (effectiveName req.secretFileName ++
              (be16 metadata.length ++
                (metadata ++ (secretToStoreOf req secret ++ rest)))))) := by
    simp [buildFrame, List.append_assoc]
  have hsplit13 : buildFrame req secret metadata ++ rest =
      (magicBytes ++ [methodByte req.method, nLsbByteOf req, flagsByte req] ++
        be16 (effectiveName req.secretFileName).length) ++
        (be32 (secretToStoreOf req secret).length ++
          (effectiveName req.secretFileName ++
            (be16 metadata.length ++
              (metadata ++ (secretToStoreOf req secret ++ rest))))) := by
    simp [buildFrame, List.append_assoc]
  have hsplit17 : buildFrame req secret metadata ++ rest =
      (magicBytes ++ [methodByte req.method, nLsbByteOf req, flagsByte req] ++
        be16 (effectiveName req.secretFileName).length ++
        be32 (secretToStoreOf req secret).length) ++
      (effectiveName req.secretFileName ++
        (be16 metadata.length ++ (metadata ++ (secretToStoreOf req secret ++ rest)))) := by
    simp [buildFrame, List.append_assoc]
  have hsplitM : buildFrame req secret metadata ++ rest =
      (magicBytes ++ [methodByte req.method, nLsbByteOf req, flagsByte req] ++
        be16 (effectiveName req.secretFileName).length ++
        be32 (secretToStoreOf req secret).length ++ effectiveName req.secretFileName) ++
      (be16 metadata.length ++ (metadata ++ (secretToStoreOf req secret ++ rest))) := by
    simp [buildFrame, List.append_assoc]
  have hsplitS : buildFrame req secret metadata ++ rest =
      (magicBytes ++ [methodByte req.method, nLsbByteOf req, flagsByte req] ++
        be16 (effectiveName req.secretFileName).length ++
        be32 (secretToStoreOf req secret).length ++ effectiveName req.secretFileName ++
        be16 metadata.length ++ metadata) ++
      (secretToStoreOf req secret ++ rest) := by
    simp [buildFrame, List.append_assoc]
  have hdrop8 : (buildFrame req secret metadata ++ rest).drop 8 =
      [methodByte req.method, nLsbByteOf req, flagsByte req] ++
        (be16 (effectiveName req.secretFileName).length ++
          (be32 (secretToStoreOf req secret).length ++
            (effectiveName req.secretFileName ++
              (be16 metadata.length ++
                (metadata ++ (secretToStoreOf req secret ++ rest)))))) := by
    rw [hsplit8]
    exact List.drop_left' rfl
  have hdrop11 : (buildFrame req secret metadata ++ rest).drop 11 =
      be16 (effectiveName req.secretFileName).length ++
        (be32 (secretToStoreOf req secret).length ++
          (effectiveName req.secretFileName ++
            (be16 metadata.length ++
              (metadata ++ (secretToStoreOf req secret ++ rest))))) := by
    rw [hsplit11]
    exact List.drop_left' rfl
  have hdrop13 : (buildFrame req secret metadata ++ rest).drop 13 =
      be32 (secretToStoreOf req secret).length ++
        (effectiveName req.secretFileName ++
          (be16 metadata.length ++
            (metadata ++ (secretToStoreOf req secret ++ rest)))) := by
    rw [hsplit13]
    exact List.drop_left' (by simp [magicBytes, be16])
  have hdrop17 : (buildFrame req secret metadata ++ rest).drop 17 =
      effectiveName req.secretFileName ++
        (be16 metadata.length ++ (metadata ++ (secretToStoreOf req secret ++ rest))) := by
    rw [hsplit17]
    exact List.drop_left' (by simp [magicBytes, be16, be32])
  have hdropM : (buildFrame req secret metadata ++ rest).drop
      (17 + (effectiveName req.secretFileName).length) =
      be16 metadata.length ++ (metadata ++ (secretToStoreOf req secret ++ rest)) := by
    rw [hsplitM]
    refine List.drop_left' ?_
    simp [magicBytes, be16, be32]
    ring
  have hdropS : (buildFrame req secret metadata ++ rest).drop
      (17 + (effectiveName req.secretFileName).length + 2 + metadata.length) =
      secretToStoreOf req secret ++ rest := by
    rw [hsplitS]
    refine List.drop_left' ?_
    simp [magicBytes, be16, be32]
    ring
  refine ⟨?_, ?_, ?_, ?_, ?_, ?_, ?_, ?_, ?_⟩
  · rw [hsplit8, show (8 : Nat) = magicBytes.length from rfl, List.take_left]
  · rw [show byteAt (buildFrame req secret metadata ++ rest) 8 =
        byteAt ((buildFrame req secret metadata ++ rest).drop 8) 0 from
      (byteAt_drop_add _ 8 0).symm, hdrop8]
    rfl
  · rw [show byteAt (buildFrame req secret metadata ++ rest) 9 =
        byteAt ((buildFrame req secret metadata ++ rest).drop 8) 1 from
      (byteAt_drop_add _ 8 1).symm, hdrop8]
    rfl
  · rw [show byteAt (buildFrame req secret metadata ++ rest) 10 =
        byteAt ((buildFrame req secret metadata ++ rest).drop 8) 2 from
      (byteAt_drop_add _ 8 2).symm, hdrop8]
    rfl
  · rw [readBE16_eq_drop, hdrop11]
    show ((effectiveName req.secretFileName).length >>> 8 &&& 255) * 256 +
      ((effectiveName req.secretFileName).length &&& 255) = _
    exact be16_read _ hfn
  · rw [readBE32_eq_drop, hdrop13]
    show ((((secretToStoreOf req secret).length >>> 24 &&& 255) * 256 +
        ((secretToStoreOf req secret).length >>> 16 &&& 255)) * 256 +
        ((secretToStoreOf req secret).length >>> 8 &&& 255)) * 256 +
        ((secretToStoreOf req secret).length &&& 255) = _
    exact be32_read _ hsl
  · rw [hdrop17, List.take_left' rfl]
  · rw [readBE16_eq_drop, hdropM]
    show (metadata.length >>> 8 &&& 255) * 256 + (metadata.length &&& 255) = _
    exact be16_read _ hml
  · rw [hdropS, List.take_left' rfl]

theorem flagsByte_and_one (req : EmbedRequest) :
    flagsByte req &&& 1 = if req.useEncryption then 1 else 0 := by
  unfold flagsByte
  rcases req.useEncryption <;> rcases req.useRandomStart <;> rfl

/-- If the reassembled byte stream of a candidate starts with exactly
the built frame, the candidate at start 0 accepts and returns the
original secret and stored filename. -/
theorem tryOneStart_accept (rq : ExtractRequest) (req : EmbedRequest)
    (secret metadata bits rest : List Nat)
    (hfn : (effectiveName req.secretFileName).length ≤ 65535)
    (hml : metadata.length ≤ 65535)
    (hsl : (secretToStoreOf req secret).length < 4294967296)
    (hraw : bitsToBytes (rotateBits bits 0) = buildFrame req secret metadata ++ rest)
    (hkey : req.useEncryption = true → rq.stegoKey = req.stegoKey ∧ req.stegoKey ≠ []) :
    tryOneStart rq bits (methodByte req.method) (nLsbByteOf req) 0 =
      some (.ok (secret, effectiveName req.secretFileName)) := by
  obtain ⟨f1, f2, f3, f4, f5, f6, f7, f8, f9⟩ :=
    frame_fields req secret metadata rest hfn hml hsl
  have hlenraw : (buildFrame req secret metadata ++ rest).length =
      19 + (effectiveName req.secretFileName).length + metadata.length +
        (secretToStoreOf req secret).length + rest.length := by
    rw [List.length_append, buildFrame_length]
  simp only [tryOneStart]
  rw [hraw, f5, f6]
  rw [if_neg (show ¬ (buildFrame req secret metadata ++ rest).length < 17 by
    rw [hlenraw]; omega)]
  rw [if_neg (not_not_intro f1)]
  rw [if_neg (not_not_intro ⟨f2, f3⟩)]
  rw [if_neg (show ¬ (buildFrame req secret metadata ++ rest).length <
      8 + 1 + 1 + 1 + 2 + 4 + (effectiveName req.secretFileName).length + 2 by
    rw [hlenraw]; omega)]
  rw [if_neg (show ¬ (0 < (effectiveName req.secretFileName).length ∧
      (buildFrame req secret metadata ++ rest).length <
        17 + (effectiveName req.secretFileName).length + 2) by
    rw [hlenraw]; rintro ⟨h1, h2⟩; omega)]
  rw [f7, f8]
  rw [if_neg (show ¬ (buildFrame req secret metadata ++ rest).length <
      17 + (effectiveName req.secretFileName).length + 2 + metadata.length +
        (secretToStoreOf req secret).length by
    rw [hlenraw]; omega)]
  rw [show 17 + (effectiveName req.secretFileName).length + 2 + metadata.length =
    17 + (effectiveName req.secretFileName).length + 2 + metadata.length from rfl]
  rw [f9, f4, flagsByte_and_one]
  by_cases henc : req.useEncryption = true
  · rw [henc]
    rw [if_pos (show (if true = true then 1 else 0) ≠ 0 from by norm_num)]
    obtain ⟨hkeq, hkne⟩ := hkey henc
    rw [if_neg (by rw [hkeq]; exact hkne)]
    have hstored : secretToStoreOf req secret =
        vigenereCipher (calculateChecksum secret ++ secret) req.stegoKey := by
      unfold secretToStoreOf
      rw [henc]
      simp
    rw [hkeq, hstored, vigenereCipher_involutive]
    rw [if_neg (show ¬ (calculateChecksum secret ++ secret).length < 4 by
      simp [length_calculateChecksum])]
    rw [List.drop_left' (length_calculateChecksum secret),
      List.take_left' (length_calculateChecksum secret)]
    rw [if_neg (not_not_intro rfl)]
  · have henc2 : req.useEncryption = false := by
      cases h2 : req.useEncryption
      · rfl
      · exact absurd h2 henc
    rw [henc2]
    rw [if_neg (show ¬ (if false = true then 1 else 0) ≠ 0 from by norm_num)]
    have hstored : secretToStoreOf req secret = secret := by
      unfold secretToStoreOf
      rw [henc2]
      simp
    rw [hstored]

/-! ## C6: the frame effect of a successful embed -/

/-- C6: a successful embed preserves the container length and every
byte at a position outside the payload-index vector, in particular the
leading metadata block and all four bytes of every recognized frame
header.  The input buffer is never mutated: the model is pure and the
Go code writes only into its private copy of the cover. -/
theorem embed_frame_effect (req : EmbedRequest) (secret metadata out : List Nat)
    (hok : embedMessage req secret metadata = .ok out) :
    out.length = req.coverAudio.length ∧
    (∀ q, q ∉ collectPayloadIndices req.coverAudio →
        byteAt out q = byteAt req.coverAudio q) ∧
    (∀ q, q < parseID3v2Size req.coverAudio → byteAt out q = byteAt req.coverAudio q) ∧
    (∀ fs ∈ frameStarts req.coverAudio, ∀ t, t < 4 →
        byteAt out (fs + t) = byteAt req.coverAudio (fs + t)) := by
  have hbounds := collectLoop_mem_bounds req.coverAudio req.coverAudio.length
    (parseID3v2Size req.coverAudio)
  have hdisj := frameStartsLoop_disjoint req.coverAudio req.coverAudio.length
    (parseID3v2Size req.coverAudio)
  unfold embedMessage at hok
  by_cases h1 : req.method = .lsb ∧ (req.nLsb < 1 ∨ 4 < req.nLsb)
  · rw [if_pos h1] at hok
    exact Except.noConfusion hok
  rw [if_neg h1] at hok
  by_cases h2 : req.useEncryption = true ∧ req.stegoKey = []
  · rw [if_pos h2] at hok
    exact Except.noConfusion hok
  rw [if_neg h2] at hok
  by_cases h3 : 0xFFFF < (effectiveName req.secretFileName).length
  · rw [if_pos h3] at hok
    exact Except.noConfusion hok
  rw [if_neg h3] at hok
  by_cases h4 : 0xFFFF < metadata.length
  · rw [if_pos h4] at hok
    exact Except.noConfusion hok
  rw [if_neg h4] at hok
  by_cases hP : (collectPayloadIndices req.coverAudio).length = 0
  · rw [if_pos hP] at hok
    exact Except.noConfusion hok
  rw [if_neg hP] at hok
  by_cases hm : req.method = .lsb
  · rw [if_pos hm] at hok
    have hn : 0 < req.nLsb ∧ req.nLsb ≤ 4 := by
      rcases Nat.lt_or_ge req.nLsb 1 with h | h
      · exact absurd ⟨hm, Or.inl h⟩ h1
      · rcases Nat.lt_or_ge 4 req.nLsb with h5 | h5
        · exact absurd ⟨hm, Or.inr h5⟩ h1
        · exact ⟨h, h5⟩
    by_cases hcap : (collectPayloadIndices req.coverAudio).length * req.nLsb <
        (bytesToBits (buildFrame req secret metadata)).length
    · rw [if_pos hcap] at hok
      exact Except.noConfusion hok
    rw [if_neg hcap] at hok
    by_cases hrs : req.useRandomStart = true ∧ req.stegoKey = []
    · rw [if_pos hrs] at hok
      exact Except.noConfusion hok
    rw [if_neg hrs, if_pos hm] at hok
    have hout : lsbEmbedLoop (collectPayloadIndices req.coverAudio) req.nLsb
        ((collectPayloadIndices req.coverAudio).length * req.nLsb) req.coverAudio
        (bytesToBits (buildFrame req secret metadata))
        (if req.useRandomStart = true then
          deterministicStartIndex req.stegoKey
            ((collectPayloadIndices req.coverAudio).length * req.nLsb)
        else 0) = out := by
      simpa using hok
    have hcpos : 0 < (collectPayloadIndices req.coverAudio).length * req.nLsb := by
      have := Nat.pos_of_ne_zero hP
      exact Nat.mul_pos this hn.1
    refine ⟨?_, ?_, ?_, ?_⟩
    · rw [← hout, lsbEmbedLoop_length]
    · intro q hq
      rw [← hout, lsbEmbedLoop_byteAt_not_mem _ _ _ hn.1 rfl hcpos q hq]
    · intro q hq
      rw [← hout, lsbEmbedLoop_byteAt_not_mem _ _ _ hn.1 rfl hcpos q
        (fun hmem => by have := (hbounds q hmem).1; omega)]
    · intro fs hfs t ht
      rw [← hout, lsbEmbedLoop_byteAt_not_mem _ _ _ hn.1 rfl hcpos (fs + t)
        (fun hmem => by rcases hdisj fs hfs (fs + t) hmem with h | h <;> omega)]
  · rw [if_neg hm] at hok
    by_cases hcap : (collectPayloadIndices req.coverAudio).length <
        (bytesToBits (buildFrame req secret metadata)).length
    · rw [if_pos hcap] at hok
      exact Except.noConfusion hok
    rw [if_neg hcap] at hok
    by_cases hrs : req.useRandomStart = true ∧ req.stegoKey = []
    · rw [if_pos hrs] at hok
      exact Except.noConfusion hok
    rw [if_neg hrs, if_neg hm] at hok
    have hout : parityEmbedLoop (collectPayloadIndices req.coverAudio)
        (collectPayloadIndices req.coverAudio).length req.coverAudio
        (bytesToBits (buildFrame req secret metadata))
        (if req.useRandomStart = true then
          deterministicStartIndex req.stegoKey (collectPayloadIndices req.coverAudio).length
        else 0) = out := by
      simpa using hok
    have hcpos : 0 < (collectPayloadIndices req.coverAudio).length := Nat.pos_of_ne_zero hP
    refine ⟨?_, ?_, ?_, ?_⟩
    · rw [← hout, parityEmbedLoop_length]
    · intro q hq
      rw [← hout, parityEmbedLoop_byteAt_not_mem _ _ rfl hcpos q hq]
    · intro q hq
      rw [← hout, parityEmbedLoop_byteAt_not_mem _ _ rfl hcpos q
        (fun hmem => by have := (hbounds q hmem).1; omega)]
    · intro fs hfs t ht
      rw [← hout, parityEmbedLoop_byteAt_not_mem _ _ rfl hcpos (fs + t)
        (fun hmem => by rcases hdisj fs hfs (fs + t) hmem with h | h <;> omega)]

/-- Witness for C6 at the concrete LSB-4 embed over the two-frame
cover: the header bytes of both frames and the first byte are
untouched. -/
theorem embed_frame_effect_witness :
    embedMessage lsb4Req [0xAB] [] = .ok stego64 ∧
    byteAt stego64 0 = byteAt cover64 0 ∧
    byteAt stego64 33 = byteAt cover64 33 := by
  have h1 : embedMessage lsb4Req [0xAB] [] = .ok stego64 := by rfl
  have h := embed_frame_effect lsb4Req [0xAB] [] stego64 h1
  refine ⟨h1, ?_, ?_⟩
  · exact h.2.2.2 0 (by decide) 0 (by decide)
  · exact h.2.2.2 32 (by decide) 1 (by decide)

/-- C2 amended: the payload-index vector is computed by the frame
scanner for every input, including RIFF/WAVE ones: every byte strictly
between a recognized frame header's end (start + 4) and the following
frame's start is emitted, and on an invalid header the scan advances by
exactly one byte until end of buffer, exactly the spec's frame-coded
rule, with no PCM special case. -/
theorem collect_eq_spec_scan (d : List Nat) :
    collectPayloadIndices d = specFrameIndices d :=
  collectLoop_eq_specScanLoop d d.length (parseID3v2Size d)

/-- Witness for C3: on the two-frame cover with LSB-4 a 28-byte frame
(8-byte secret) is exactly at capacity and succeeds, while a 29-byte
frame (9-byte secret) exceeds it and fails with the capacity error. -/
theorem embed_capacity_boundary_witness :
    embedMessage lsb4Req (List.replicate 9 0xAB) [] = .error .insufficientCapacity ∧
    (∃ out, embedMessage lsb4Req (List.replicate 8 0xAB) [] = .ok out) := by
  constructor
  · exact (embed_capacity_boundary lsb4Req (List.replicate 9 0xAB) []
      (fun _ => by decide) (fun h => by simp [lsb4Req] at h)
      (fun h => by simp [lsb4Req] at h) (by decide) (by decide) (by decide)).1.mpr
      (by decide)
  · exact (embed_capacity_boundary lsb4Req (List.replicate 8 0xAB) []
      (fun _ => by decide) (fun h => by simp [lsb4Req] at h)
      (fun h => by simp [lsb4Req] at h) (by decide) (by decide) (by decide)).2
      (by decide)

/-! ## Deconstructing a successful embed without keyed start -/

theorem embedMessage_ok_facts (req : EmbedRequest) (secret metadata out : List Nat)
    (hrs : req.useRandomStart = false)
    (hok : embedMessage req secret metadata = .ok out) :
    (effectiveName req.secretFileName).length ≤ 65535 ∧
    metadata.length ≤ 65535 ∧
    (collectPayloadIndices req.coverAudio).length ≠ 0 ∧
    (req.useEncryption = true → req.stegoKey ≠ []) ∧
    (req.method = .lsb →
      (1 ≤ req.nLsb ∧ req.nLsb ≤ 4) ∧
      (bytesToBits (buildFrame req secret metadata)).length ≤
        (collectPayloadIndices req.coverAudio).length * req.nLsb ∧
      out = lsbEmbedLoop (collectPayloadIndices req.coverAudio) req.nLsb
        ((collectPayloadIndices req.coverAudio).length * req.nLsb) req.coverAudio
        (bytesToBits (buildFrame req secret metadata)) 0) ∧
    (req.method = .parity →
      (bytesToBits (buildFrame req secret metadata)).length ≤
        (collectPayloadIndices req.coverAudio).length ∧
      out = parityEmbedLoop (collectPayloadIndices req.coverAudio)
        (collectPayloadIndices req.coverAudio).length req.coverAudio
        (bytesToBits (buildFrame req secret metadata)) 0) := by
  unfold embedMessage at hok
  by_cases h1 : req.method = .lsb ∧ (req.nLsb < 1 ∨ 4 < req.nLsb)
  · rw [if_pos h1] at hok
    exact Except.noConfusion hok
  rw [if_neg h1] at hok
  by_cases h2 : req.useEncryption = true ∧ req.stegoKey = []
  · rw [if_pos h2] at hok
    exact Except.noConfusion hok
  rw [if_neg h2] at hok
  by_cases h3 : 0xFFFF < (effectiveName req.secretFileName).length
  · rw [if_pos h3] at hok
    exact Except.noConfusion hok
  rw [if_neg h3] at hok
  by_cases h4 : 0xFFFF < metadata.length
  · rw [if_pos h4] at hok
    exact Except.noConfusion hok
  rw [if_neg h4] at hok
  by_cases hP : (collectPayloadIndices req.coverAudio).length = 0
  · rw [if_pos hP] at hok
    exact Except.noConfusion hok
  rw [if_neg hP] at hok
  refine ⟨by omega, by omega, hP, fun he hk => h2 ⟨he, hk⟩, ?_, ?_⟩
  · intro hm
    rw [if_pos hm] at hok
    have hn : 0 < req.nLsb ∧ req.nLsb ≤ 4 := by
      rcases Nat.lt_or_ge req.nLsb 1 with h | h
      · exact absurd ⟨hm, Or.inl h⟩ h1
      · rcases Nat.lt_or_ge 4 req.nLsb with h5 | h5
        · exact absurd ⟨hm, Or.inr h5⟩ h1
        · exact ⟨h, h5⟩
    by_cases hcap : (collectPayloadIndices req.coverAudio).length * req.nLsb <
        (bytesToBits (buildFrame req secret metadata)).length
    · rw [if_pos hcap] at hok
      exact Except.noConfusion hok
    rw [if_neg hcap] at hok
    rw [if_neg (show ¬ (req.useRandomStart = true ∧ req.stegoKey = []) by
      rintro ⟨ha, _⟩
      rw [hrs] at ha
      exact Bool.noConfusion ha)] at hok
    rw [if_pos hm, hrs] at hok
    simp only [Bool.false_eq_true, if_false, Except.ok.injEq] at hok
    exact ⟨⟨hn.1, hn.2⟩, by omega, hok.symm⟩
  · intro hm
    have hml : ¬ req.method = .lsb := by
      rw [hm]
      intro hc
      exact Method.noConfusion hc
    rw [if_neg hml] at hok
    by_cases hcap : (collectPayloadIndices req.coverAudio).length <
        (bytesToBits (buildFrame req secret metadata)).length
    · rw [if_pos hcap] at hok
      exact Except.noConfusion hok
    rw [if_neg hcap] at hok
    rw [if_neg (show ¬ (req.useRandomStart = true ∧ req.stegoKey = []) by
      rintro ⟨ha, _⟩
      rw [hrs] at ha
      exact Bool.noConfusion ha)] at hok
    rw [if_neg hml, hrs] at hok
    simp only [Bool.false_eq_true, if_false, Except.ok.injEq] at hok
    exact ⟨by omega, hok.symm⟩

/-! ## Stability of the scan under payload-only rewrites -/

theorem parseID3v2Size_stable (d d2 : List Nat) (hlen : d2.length = d.length)
    (hagree : ∀ q, q ∉ collectPayloadIndices d → byteAt d2 q = byteAt d q) :
    parseID3v2Size d2 = parseID3v2Size d := by
  have hbound := collectLoop_mem_bounds d d.length (parseID3v2Size d)
  have hlow : ∀ q, q < parseID3v2Size d + 4 → byteAt d2 q = byteAt d q := by
    intro q hq
    apply hagree
    intro hmem
    have := (hbound q hmem).1
    omega
  unfold parseID3v2Size
  rw [hlen]
  by_cases h10 : d.length < 10
  · rw [if_pos h10, if_pos h10]
  · rw [if_neg h10, if_neg h10]
    by_cases hID3 : byteAt d 0 = 0x49 ∧ byteAt d 1 = 0x44 ∧ byteAt d 2 = 0x33
    · have hstart : 10 ≤ parseID3v2Size d := by
        unfold parseID3v2Size
        rw [if_neg h10, if_pos hID3]
        omega
      have hq : ∀ q, q < 10 → byteAt d2 q = byteAt d q := fun q hq => hlow q (by omega)
      rw [hq 0 (by omega), hq 1 (by omega), hq 2 (by omega), hq 6 (by omega),
        hq 7 (by omega), hq 8 (by omega), hq 9 (by omega)]
    · have hq : ∀ q, q < 3 → byteAt d2 q = byteAt d q := by
        intro q hq2
        apply hlow
        omega
      rw [hq 0 (by omega), hq 1 (by omega), hq 2 (by omega)]
      rw [if_neg hID3, if_neg hID3]

theorem collectPayloadIndices_stable (d d2 : List Nat) (hlen : d2.length = d.length)
    (hagree : ∀ q, q ∉ collectPayloadIndices d → byteAt d2 q = byteAt d q) :
    collectPayloadIndices d2 = collectPayloadIndices d := by
  have hid3 := parseID3v2Size_stable d d2 hlen hagree
  unfold collectPayloadIndices
  rw [hid3, hlen]
  apply collectLoop_stable d d2 hlen
  intro q hq hqm
  exact hagree q hqm

/-! ## Reading the embedded stream back -/

theorem lsb_stream_read (p : List Nat) (n : Nat) (cover B : List Nat)
    (hn : 0 < n) (hn8 : n ≤ 8) (hp : List.Pairwise (· < ·) p)
    (hx : ∀ x ∈ p, x < cover.length) (hbytes : ∀ b ∈ cover, b < 256)
    (hfit : B.length ≤ p.length * n) (hble : ∀ x ∈ B, x ≤ 1)
    (n2 r : Nat) (hn2 : 0 < n2) (hr : r < p.length * n2)
    (hs : r % n2 < n) (hidx : (r / n2) * n + r % n2 < B.length) :
    (lsbBitsFor (lsbEmbedLoop p n (p.length * n) cover B 0) p n2).getD r 0 =
      B.getD ((r / n2) * n + r % n2) 0 := by
  rw [lsbBitsFor_getD _ n2 hn2 p r hr]
  have hj : r / n2 < p.length := by
    rw [Nat.div_lt_iff_lt_mul hn2]
    omega
  rw [lsbEmbedLoop_bitGet p n (p.length * n) hn hn8 rfl hp B cover 0 (by omega)
    hx hbytes (r / n2) hj (r % n2) hs]
  rw [if_pos (show 0 ≤ (r / n2) * n + r % n2 ∧ (r / n2) * n + r % n2 < 0 + B.length by
    omega)]
  rw [Nat.sub_zero]
  exact getD_le_one_collapse B _ hble

theorem parity_stream_read (p cover B : List Nat)
    (hp : List.Pairwise (· < ·) p)
    (hx : ∀ x ∈ p, x < cover.length) (hbytes : ∀ b ∈ cover, b < 256)
    (hfit : B.length ≤ p.length) (hble : ∀ x ∈ B, x ≤ 1)
    (j : Nat) (hj : j < B.length) :
    (parityBitsFor (parityEmbedLoop p p.length cover B 0) p).getD j 0 = B.getD j 0 := by
  have hjp : j < p.length := lt_of_lt_of_le hj hfit
  rw [parityBitsFor_getD _ p j hjp]
  rw [parityEmbedLoop_byteAt p p.length rfl hp B cover 0 (by omega) hx j hjp]
  rw [if_pos (show 0 ≤ j ∧ j < 0 + B.length by omega)]
  rw [Nat.sub_zero]
  have hv : byteAt cover (p.getD j 0) < 256 :=
    byteAt_lt_of_bytes _ _ hbytes (hx _ (getD_mem_of_lt _ _ _ hjp))
  have hb : B.getD j 0 < 2 := by
    have := hble _ (getD_mem_of_lt B j 0 hj)
    omega
  exact (parity_embed_all _ hv _ hb).2.2.2

theorem lsb_stream_prefix (p : List Nat) (n : Nat) (cover B : List Nat)
    (hn : 0 < n) (hn8 : n ≤ 8) (hp : List.Pairwise (· < ·) p)
    (hx : ∀ x ∈ p, x < cover.length) (hbytes : ∀ b ∈ cover, b < 256)
    (hfit : B.length ≤ p.length * n) (hble : ∀ x ∈ B, x ≤ 1) :
    lsbBitsFor (lsbEmbedLoop p n (p.length * n) cover B 0) p n =
      B ++ (lsbBitsFor (lsbEmbedLoop p n (p.length * n) cover B 0) p n).drop B.length := by
  apply prefix_append_drop
  · rw [lsbBitsFor_length]
    exact hfit
  · intro r hr
    have h1 := lsb_stream_read p n cover B hn hn8 hp hx hbytes hfit hble n r hn
      (lt_of_lt_of_le hr hfit) (Nat.mod_lt _ hn)
      (by rw [Nat.div_add_mod']; exact hr)
    rw [Nat.div_add_mod'] at h1
    exact h1

theorem parity_stream_prefix (p cover B : List Nat)
    (hp : List.Pairwise (· < ·) p)
    (hx : ∀ x ∈ p, x < cover.length) (hbytes : ∀ b ∈ cover, b < 256)
    (hfit : B.length ≤ p.length) (hble : ∀ x ∈ B, x ≤ 1) :
    parityBitsFor (parityEmbedLoop p p.length cover B 0) p =
      B ++ (parityBitsFor (parityEmbedLoop p p.length cover B 0) p).drop B.length := by
  apply prefix_append_drop
  · rw [parityBitsFor_length]
    exact hfit
  · intro r hr
    exact parity_stream_read p cover B hp hx hbytes hfit hble r hr

/-! ## The built frame holds bytes, and starts with the magic -/

theorem Bytes_append (a b : List Nat) (ha : Bytes a) (hb : Bytes b) : Bytes (a ++ b) := by
  intro x hx
  rcases List.mem_append.mp hx with h | h
  · exact ha x h
  · exact hb x h

theorem vigenereCipher_bytes (data key : List Nat) (hd : Bytes data) (hk : Bytes key) :
    Bytes (vigenereCipher data key) := by
  by_cases hkey : key = []
  · subst hkey
    simpa [vigenereCipher] using hd
  · intro b hb
    rcases List.mem_iff_getElem.mp hb with ⟨i, hi, rfl⟩
    have hi2 : i < data.length := by
      rw [length_vigenereCipher] at hi
      exact hi
    rw [← List.getD_eq_getElem _ 0 hi]
    rw [get_vigenereCipher data key hkey i hi2]
    have h256 : (256 : Nat) = 2 ^ 8 := by norm_num
    have h1 : data.getD i 0 < 2 ^ 8 :=
      h256 ▸ hd _ (getD_mem_of_lt _ i 0 hi2)
    have h2 : key.getD (i % key.length) 0 < 2 ^ 8 :=
      h256 ▸ hk _ (getD_mem_of_lt _ (i % key.length) 0
        (Nat.mod_lt _ (List.length_pos.mpr hkey)))
    exact h256.symm ▸ Nat.xor_lt_two_pow h1 h2

theorem calculateChecksum_bytes (d : List Nat) : Bytes (calculateChecksum d) := by
  intro b hb
  unfold calculateChecksum at hb
  simp only [List.mem_cons, List.not_mem_nil, or_false] at hb
  rcases hb with rfl | rfl | rfl | rfl <;> (rw [and255_eq_mod]; omega)

theorem be16_bytes (x : Nat) : Bytes (be16 x) := by
  intro b hb
  simp only [be16, List.mem_cons, List.not_mem_nil, or_false] at hb
  rcases hb with rfl | rfl <;> (rw [and255_eq_mod]; omega)

theorem be32_bytes (x : Nat) : Bytes (be32 x) := by
  intro b hb
  simp only [be32, List.mem_cons, List.not_mem_nil, or_false] at hb
  rcases hb with rfl | rfl | rfl | rfl <;> (rw [and255_eq_mod]; omega)

theorem buildFrame_bytes (req : EmbedRequest) (secret metadata : List Nat)
    (hsec : Bytes secret) (hmeta : Bytes metadata)
    (hfname : Bytes req.secretFileName) (hkey : Bytes req.stegoKey)
    (hnb : nLsbByteOf req < 256) :
    Bytes (buildFrame req secret metadata) := by
  have hname : Bytes (effectiveName req.secretFileName) := by
    by_cases hfe : req.secretFileName = []
    · unfold effectiveName
      rw [if_pos hfe]
      decide
    · unfold effectiveName
      rw [if_neg hfe]
      exact hfname
  have hstored : Bytes (secretToStoreOf req secret) := by
    unfold secretToStoreOf
    split
    · exact vigenereCipher_bytes _ _ (Bytes_append _ _ (calculateChecksum_bytes secret) hsec)
        hkey
    · exact hsec
  have hmid : Bytes [methodByte req.method, nLsbByteOf req, flagsByte req] := by
    intro b hb
    simp only [List.mem_cons, List.not_mem_nil, or_false] at hb
    rcases hb with rfl | rfl | rfl
    · cases hM : req.method <;> decide
    · exact hnb
    · unfold flagsByte
      split <;> split <;> norm_num
  unfold buildFrame
  exact Bytes_append _ _ (Bytes_append _ _ (Bytes_append _ _ (Bytes_append _ _
    (Bytes_append _ _ (Bytes_append _ _ (Bytes_append _ _ (by decide) hmid)
      (be16_bytes _)) (be32_bytes _)) hname) (be16_bytes _)) hmeta) hstored

theorem frameBits_magic (req : EmbedRequest) (secret metadata : List Nat) (c : Nat)
    (hc : c < 64) :
    byteAt (bytesToBits (buildFrame req secret metadata)) c =
      byteAt (bytesToBits magicBytes) c := by
  have hsplit : buildFrame req secret metadata =
      magicBytes ++ ([methodByte req.method, nLsbByteOf req, flagsByte req] ++
        (be16 (effectiveName req.secretFileName).length ++
          (be32 (secretToStoreOf req secret).length ++
            (effectiveName req.secretFileName ++
              (be16 metadata.length ++ (metadata ++ secretToStoreOf req secret)))))) := by
    simp [buildFrame, List.append_assoc]
  rw [hsplit, bytesToBits_append]
  exact byteAt_append_left _ _ c (show c < (bytesToBits magicBytes).length by
    rw [length_bytesToBits]
    simp only [magicBytes, List.length_cons, List.length_nil]
    omega)

/-! ## Failing and succeeding candidates of the extraction loops -/

theorem tryOneStart_magic_fail (rq : ExtractRequest) (bits : List Nat)
    (em en beta : Nat) (hbeta : beta < 8)
    (hne : (bitsToBytes bits).getD beta 0 ≠ magicBytes.getD beta 0) :
    tryOneStart rq bits em en 0 = none := by
  simp only [tryOneStart]
  rw [rotateBits_zero]
  by_cases hlen : (bitsToBytes bits).length < 17
  · rw [if_pos hlen]
  · rw [if_neg hlen]
    rw [if_pos (show (bitsToBytes bits).take 8 ≠ magicBytes by
      intro h
      apply hne
      have h2 : ((bitsToBytes bits).take 8).getD beta 0 = magicBytes.getD beta 0 := by
        rw [h]
      rw [← h2, List.getD_eq_getElem?_getD, List.getD_eq_getElem?_getD,
        List.getElem?_take, if_pos hbeta])]

theorem lsb_wrong_trial_fails (rq : ExtractRequest) (p : List Nat) (n : Nat)
    (cover B : List Nat)
    (hmagic : ∀ c, c < 64 → byteAt B c = byteAt (bytesToBits magicBytes) c)
    (hn : 0 < n) (hn8 : n ≤ 8) (hp : List.Pairwise (· < ·) p)
    (hx : ∀ x ∈ p, x < cover.length) (hbytes : ∀ b ∈ cover, b < 256)
    (hfit : B.length ≤ p.length * n) (hble : ∀ x ∈ B, x ≤ 1) (h64 : 64 ≤ B.length)
    (hplen : 16 ≤ p.length)
    (hkey : rq.stegoKey = [])
    (n2 beta : Nat) (hn2 : 0 < n2) (hbeta : beta < 8)
    (hrange : 8 * beta + 8 ≤ 16 * n2)
    (hcond : ∀ j, j < 8 → ((8 * beta + j) / n2) * n + (8 * beta + j) % n2 < 64 ∧
      (8 * beta + j) % n2 < n)
    (hne : wrongByte n n2 beta ≠ magicBytes.getD beta 0) :
    tryExtractFromBits rq (lsbBitsFor (lsbEmbedLoop p n (p.length * n) cover B 0) p n2)
      (p.length * n2) 0 n2 = .error .extractionFailed := by
  have hread : ∀ j, j < 8 →
      (lsbBitsFor (lsbEmbedLoop p n (p.length * n) cover B 0) p n2).getD (8 * beta + j) 0 =
        byteAt (bytesToBits magicBytes)
          (((8 * beta + j) / n2) * n + (8 * beta + j) % n2) := by
    intro j hj
    have hc := hcond j hj
    have hrr : 8 * beta + j < p.length * n2 := by
      have : 16 * n2 ≤ p.length * n2 := Nat.mul_le_mul_right _ hplen
      omega
    have h1 := lsb_stream_read p n cover B hn hn8 hp hx hbytes hfit hble n2
      (8 * beta + j) hn2 hrr hc.2 (lt_of_lt_of_le hc.1 h64)
    rw [h1]
    exact hmagic _ hc.1
  have hfail : tryOneStart rq (lsbBitsFor (lsbEmbedLoop p n (p.length * n) cover B 0) p n2)
      0 n2 0 = none := by
    apply tryOneStart_magic_fail rq _ 0 n2 beta hbeta
    rw [bitsToBytes_getD _ beta]
    rw [byteFromBits_congr
      (((lsbBitsFor (lsbEmbedLoop p n (p.length * n) cover B 0) p n2).drop (8 * beta)).take 8)
      ((List.range 8).map (fun j => byteAt (bytesToBits magicBytes)
        (((8 * beta + j) / n2) * n + (8 * beta + j) % n2)))
      (by
        intro j hj
        rw [drop_take_getD _ (8 * beta) 8 j hj]
        rw [hread j hj]
        rw [List.getD_eq_getElem _ _ (by simpa using hj), List.getElem_map,
          List.getElem_range])]
    exact hne
  have hstarts : tryStartsFor rq (p.length * n2) = [0] := by
    unfold tryStartsFor
    rw [hkey]
    simp
  unfold tryExtractFromBits
  rw [hstarts]
  simp only [tryStartsLoop, hfail]

theorem lsb_out_P (d : List Nat) (n : Nat) (B : List Nat)
    (hn : 0 < n) (hP : (collectPayloadIndices d).length ≠ 0) :
    collectPayloadIndices (lsbEmbedLoop (collectPayloadIndices d) n
      ((collectPayloadIndices d).length * n) d B 0) = collectPayloadIndices d := by
  apply collectPayloadIndices_stable
  · exact lsbEmbedLoop_length _ _ _ _ _ _
  · intro q hq
    exact lsbEmbedLoop_byteAt_not_mem _ _ _ hn rfl
      (Nat.mul_pos (Nat.pos_of_ne_zero hP) hn) q hq B d 0

theorem parity_out_P (d : List Nat) (B : List Nat)
    (hP : (collectPayloadIndices d).length ≠ 0) :
    collectPayloadIndices (parityEmbedLoop (collectPayloadIndices d)
      (collectPayloadIndices d).length d B 0) = collectPayloadIndices d := by
  apply collectPayloadIndices_stable
  · exact parityEmbedLoop_length _ _ _ _ _
  · intro q hq
    exact parityEmbedLoop_byteAt_not_mem _ _ rfl (Nat.pos_of_ne_zero hP) q hq B d 0

/-- The provable round-trip law: under RoundTripCase, extraction with
the embedding key recovers the secret and the stored filename. -/
theorem roundtrip_main (req : EmbedRequest) (hint : Option Method)
    (secret metadata out : List Nat)
    (hcover : Bytes req.coverAudio)
    (hsec : Bytes secret) (hmeta : Bytes metadata)
    (hfname : Bytes req.secretFileName) (hkeyB : Bytes req.stegoKey)
    (hsl : secret.length + 4 < 4294967296)
    (hcase : RoundTripCase req hint)
    (hok : embedMessage req secret metadata = .ok out) :
    extractMessage { stegoKey := req.stegoKey, method := hint } out =
      .ok (secret, effectiveName req.secretFileName) := by
  obtain ⟨hrs, hmethods⟩ := hcase
  obtain ⟨hfn, hml, hP, hek, hlsb, hpar⟩ :=
    embedMessage_ok_facts req secret metadata out hrs hok
  have hstl : (secretToStoreOf req secret).length < 4294967296 := by
    unfold secretToStoreOf
    split
    · rw [length_vigenereCipher, List.length_append, length_calculateChecksum]
      omega
    · omega
  have hnamelen : 1 ≤ (effectiveName req.secretFileName).length := by
    by_cases hfe : req.secretFileName = []
    · unfold effectiveName
      rw [if_pos hfe]
      decide
    · unfold effectiveName
      rw [if_neg hfe]
      exact List.length_pos.mpr hfe
  have hBlen : (bytesToBits (buildFrame req secret metadata)).length =
      8 * (buildFrame req secret metadata).length := length_bytesToBits _
  have hFlen : 20 ≤ (buildFrame req secret metadata).length := by
    rw [buildFrame_length]
    omega
  have hB160 : 160 ≤ (bytesToBits (buildFrame req secret metadata)).length := by omega
  have hble : ∀ x ∈ bytesToBits (buildFrame req secret metadata), x ≤ 1 :=
    bytesToBits_le_one _
  have hpp : List.Pairwise (· < ·) (collectPayloadIndices req.coverAudio) :=
    collectLoop_pairwise req.coverAudio req.coverAudio.length (parseID3v2Size req.coverAudio)
  have hxb : ∀ x ∈ collectPayloadIndices req.coverAudio, x < req.coverAudio.length :=
    fun x hx => (collectLoop_mem_bounds req.coverAudio req.coverAudio.length
      (parseID3v2Size req.coverAudio) x hx).2
  have hmagicF : ∀ c, c < 64 →
      byteAt (bytesToBits (buildFrame req secret metadata)) c =
        byteAt (bytesToBits magicBytes) c :=
    fun c hc => frameBits_magic req secret metadata c hc
  have hnb : nLsbByteOf req < 256 := by
    by_cases hmp : req.method = .parity
    · unfold nLsbByteOf
      rw [if_pos hmp]
      omega
    · unfold nLsbByteOf
      rw [if_neg hmp]
      have hm2 : req.method = .lsb := by
        cases hmm : req.method
        · rfl
        · exact absurd hmm hmp
      obtain ⟨⟨_, h4⟩, _, _⟩ := hlsb hm2
      omega
  have hFbytes : Bytes (buildFrame req secret metadata) :=
    buildFrame_bytes req secret metadata hsec hmeta hfname hkeyB hnb
  have hkeyimp : req.useEncryption = true →
      ({ stegoKey := req.stegoKey, method := hint } : ExtractRequest).stegoKey =
        req.stegoKey ∧ req.stegoKey ≠ [] :=
    fun he => ⟨rfl, hek he⟩
  have hdpos : 0 < req.coverAudio.length := by
    rcases hne2 : collectPayloadIndices req.coverAudio with _ | ⟨a, t⟩
    · exact absurd (by rw [hne2]; rfl) hP
    · have hmem : a ∈ collectPayloadIndices req.coverAudio := by
        rw [hne2]
        exact List.mem_cons_self _ _
      have := hxb a hmem
      omega
  rcases hmethods with ⟨hmlsb, hhint, hsub⟩ | ⟨hmpar, hhint⟩
  · obtain ⟨⟨hn1, hn4⟩, hfit, hout⟩ := hlsb hmlsb
    have hplen16 : 16 ≤ (collectPayloadIndices req.coverAudio).length := by
      have h4 : (collectPayloadIndices req.coverAudio).length * req.nLsb ≤
          (collectPayloadIndices req.coverAudio).length * 4 :=
        Nat.mul_le_mul_left _ hn4
      omega
    have houtlen : out.length = req.coverAudio.length := by
      rw [hout]
      exact lsbEmbedLoop_length _ _ _ _ _ _
    have hPout : collectPayloadIndices out = collectPayloadIndices req.coverAudio := by
      rw [hout]
      exact lsb_out_P req.coverAudio req.nLsb _ hn1 hP
    have haccept : tryExtractFromBits { stegoKey := req.stegoKey, method := hint }
        (lsbBitsFor out (collectPayloadIndices req.coverAudio) req.nLsb)
        ((collectPayloadIndices req.coverAudio).length * req.nLsb) 0 req.nLsb =
        .ok (secret, effectiveName req.secretFileName) := by
      have hstream : lsbBitsFor out (collectPayloadIndices req.coverAudio) req.nLsb =
          bytesToBits (buildFrame req secret metadata) ++
            (lsbBitsFor out (collectPayloadIndices req.coverAudio) req.nLsb).drop
              (bytesToBits (buildFrame req secret metadata)).length := by
        rw [hout]
        exact lsb_stream_prefix _ req.nLsb req.coverAudio _ hn1 (by omega) hpp hxb hcover
          hfit hble
      have hraw : bitsToBytes (rotateBits
          (lsbBitsFor out (collectPayloadIndices req.coverAudio) req.nLsb) 0) =
          buildFrame req secret metadata ++
            bitsToBytes ((lsbBitsFor out (collectPayloadIndices req.coverAudio)
              req.nLsb).drop (bytesToBits (buildFrame req secret metadata)).length) := by
        rw [rotateBits_zero]
        conv_lhs => rw [hstream]
        exact bitsToBytes_bytesToBits_append _ _ hFbytes
      have hacc := tryOneStart_accept { stegoKey := req.stegoKey, method := hint } req
        secret metadata _ _ hfn hml hstl hraw hkeyimp
      have hm0 : methodByte req.method = 0 := by
        rw [hmlsb]
        rfl
      have hnb2 : nLsbByteOf req = req.nLsb := by
        unfold nLsbByteOf
        rw [if_neg (by rw [hmlsb]; intro hc; exact Method.noConfusion hc)]
      rw [hm0, hnb2] at hacc
      unfold tryExtractFromBits tryStartsFor
      simp only [List.cons_append, List.nil_append]
      simp only [tryStartsLoop, hacc]
    obtain ⟨k, hkdef⟩ : ∃ k, req.nLsb = k := ⟨_, rfl⟩
    rw [hkdef] at hn1 hn4 hfit hout haccept
    unfold extractMessage
    rw [if_neg (show ¬ out.length = 0 by omega)]
    rw [hPout]
    rw [if_neg hP]
    have hS : extractLSBMethod { stegoKey := req.stegoKey, method := hint } out
        (collectPayloadIndices req.coverAudio) =
        .ok (secret, effectiveName req.secretFileName) := by
      unfold extractLSBMethod
      rcases hsub with ⟨hknil, hencf⟩ | hone
      · have hfailgen : ∀ n2 beta : Nat, 0 < n2 → beta < 8 → 8 * beta + 8 ≤ 16 * n2 →
            (∀ j, j < 8 → ((8 * beta + j) / n2) * k + (8 * beta + j) % n2 < 64 ∧
              (8 * beta + j) % n2 < k) →
            wrongByte k n2 beta ≠ magicBytes.getD beta 0 →
            tryExtractFromBits { stegoKey := req.stegoKey, method := hint }
              (lsbBitsFor out (collectPayloadIndices req.coverAudio) n2)
              ((collectPayloadIndices req.coverAudio).length * n2) 0 n2 =
              .error .extractionFailed := by
          intro n2 beta h1 h2 h3 h4 h5
          rw [hout]
          exact lsb_wrong_trial_fails _ _ k req.coverAudio _ hmagicF hn1 (by omega) hpp hxb
            hcover hfit hble (by omega) hplen16 hknil n2 beta h1 h2 h3 h4 h5
        interval_cases k
        · simp only [lsbTryLoop, haccept]
        · have hf1 := hfailgen 1 0 (by decide) (by decide) (by decide) (by decide) (by decide)
          simp only [lsbTryLoop, hf1, haccept]
        · have hf1 := hfailgen 1 0 (by decide) (by decide) (by decide) (by decide) (by decide)
          have hf2 := hfailgen 2 0 (by decide) (by decide) (by decide) (by decide) (by decide)
          simp only [lsbTryLoop, hf1, hf2, haccept]
        · have hf1 := hfailgen 1 0 (by decide) (by decide) (by decide) (by decide) (by decide)
          have hf2 := hfailgen 2 0 (by decide) (by decide) (by decide) (by decide) (by decide)
          have hf3 := hfailgen 3 1 (by decide) (by decide) (by decide) (by decide) (by decide)
          simp only [lsbTryLoop, hf1, hf2, hf3, haccept]
      · have hk1 : k = 1 := hkdef ▸ hone
        subst hk1
        simp only [lsbTryLoop, haccept]
    rw [show ({ stegoKey := req.stegoKey, method := hint } : ExtractRequest).method = hint
      from rfl]
    rcases hhint with h | h <;> rw [h] at hS ⊢ <;>
      simp only [methodsToTry, extractLoop, reduceIte, hS]
  · obtain ⟨hfitp, houtp⟩ := hpar hmpar
    have houtlen : out.length = req.coverAudio.length := by
      rw [houtp]
      exact parityEmbedLoop_length _ _ _ _ _
    have hPout : collectPayloadIndices out = collectPayloadIndices req.coverAudio := by
      rw [houtp]
      exact parity_out_P req.coverAudio _ hP
    have haccept : tryExtractFromBits { stegoKey := req.stegoKey, method := hint }
        (parityBitsFor out (collectPayloadIndices req.coverAudio))
        (collectPayloadIndices req.coverAudio).length 1 1 =
        .ok (secret, effectiveName req.secretFileName) := by
      have hstream : parityBitsFor out (collectPayloadIndices req.coverAudio) =
          bytesToBits (buildFrame req secret metadata) ++
            (parityBitsFor out (collectPayloadIndices req.coverAudio)).drop
              (bytesToBits (buildFrame req secret metadata)).length := by
        rw [houtp]
        exact parity_stream_prefix _ req.coverAudio _ hpp hxb hcover hfitp hble
      have hraw : bitsToBytes (rotateBits
          (parityBitsFor out (collectPayloadIndices req.coverAudio)) 0) =
          buildFrame req secret metadata ++
            bitsToBytes ((parityBitsFor out (collectPayloadIndices req.coverAudio)).drop
              (bytesToBits (buildFrame req secret metadata)).length) := by
        rw [rotateBits_zero]
        conv_lhs => rw [hstream]
        exact bitsToBytes_bytesToBits_append _ _ hFbytes
      have hacc := tryOneStart_accept { stegoKey := req.stegoKey, method := hint } req
        secret metadata _ _ hfn hml hstl hraw hkeyimp
      have hm1 : methodByte req.method = 1 := by
        rw [hmpar]
        rfl
      have hnb1 : nLsbByteOf req = 1 := by
        unfold nLsbByteOf
        rw [if_pos hmpar]
      rw [hm1, hnb1] at hacc
      unfold tryExtractFromBits tryStartsFor
      simp only [List.cons_append, List.nil_append]
      simp only [tryStartsLoop, hacc]
    unfold extractMessage
    rw [if_neg (show ¬ out.length = 0 by omega)]
    rw [hPout]
    rw [if_neg hP]
    rw [show ({ stegoKey := req.stegoKey, method := hint } : ExtractRequest).method = hint
      from rfl]
    rw [hhint] at haccept ⊢
    simp only [methodsToTry, extractLoop]
    rw [if_neg (show (Method.parity : Method) ≠ Method.lsb from fun hc => Method.noConfusion hc)]
    simp only [extractParityMethod, haccept]

/-! ## C1: the round-trip law -/

/-- C1 as stated fails on the code: a method hint restricts extraction
to the hinted method only, so extracting an LSB stego container with a
parity hint fails even though key and container are valid. -/
theorem roundtrip_hint_cex :
    embedMessage lsb4Req [0xAB] [] = .ok stego64 ∧
    extractMessage { stegoKey := [], method := some .parity } stego64 =
      .error .extractionFailed := by
  exact ⟨rfl, by rfl⟩

/-- C1 amended: with keyed start off and a hint that is absent or names
the embedding method, extraction with the embedding key returns the
original secret and filename, provided either the key is empty with
obfuscation off (any LSB k in 1..4, wrong-k candidates fail the magic
check), or k = 1 (the true candidate is tried first), or the method is
parity with a parity hint. -/
theorem extract_embed_roundtrip (req : EmbedRequest) (hint : Option Method)
    (secret metadata out : List Nat)
    (hcover : Bytes req.coverAudio) (hsec : Bytes secret) (hmeta : Bytes metadata)
    (hfname : Bytes req.secretFileName) (hkeyB : Bytes req.stegoKey)
    (hfne : req.secretFileName ≠ [])
    (hsl : secret.length + 4 < 4294967296)
    (hcase : RoundTripCase req hint)
    (hok : embedMessage req secret metadata = .ok out) :
    extractMessage { stegoKey := req.stegoKey, method := hint } out =
      .ok (secret, req.secretFileName) := by
  have h := roundtrip_main req hint secret metadata out hcover hsec hmeta hfname hkeyB hsl
    hcase hok
  unfold effectiveName at h
  rw [if_neg hfne] at h
  exact h

/-- Witness for the amended C1: the concrete LSB-4 embed over the
two-frame cover extracts back to the original secret and filename with
no hint. -/
theorem extract_embed_roundtrip_witness :
    embedMessage lsb4Req [0xAB] [] = .ok stego64 ∧
    extractMessage { stegoKey := [], method := none } stego64 = .ok ([0xAB], [0x66]) := by
  refine ⟨rfl, ?_⟩
  exact extract_embed_roundtrip lsb4Req none [0xAB] [] stego64 (by decide) (by decide)
    (by decide) (by decide) (by decide) (by decide) (by decide)
    ⟨rfl, Or.inl ⟨rfl, Or.inl rfl, Or.inl ⟨rfl, rfl⟩⟩⟩ rfl

/-! ## C4: wrong-key distinctness -/

/-- C4 as stated fails on the code: a wrong key on an obfuscated stego
container makes ExtractMessage return the generic extraction-failed
error, not the wrong-key error, because every per-candidate error
including the wrong-key one only advances the candidate loops and the
final error is always extractionFailed. -/
theorem extract_wrong_key_cex :
    embedMessage encReq64 [0xAB] [] = .ok stegoC4 ∧
    extractMessage { stegoKey := [0x77], method := none } stegoC4 =
      .error .extractionFailed ∧
    (Except.error StegoError.extractionFailed :
      Except StegoError (List Nat × List Nat)) ≠ .error .invalidStegoKey := by
  refine ⟨rfl, by rfl, fun h => StegoError.noConfusion (Except.error.inj h)⟩

/-- C4 amended: inside the candidate evaluator tryExtractFromBits, a
parsed frame with the obfuscation flag set and a key under which the
first 4 bytes of the de-obfuscated payload do not match the checksum of
the rest yields the wrong-key error, distinct from extraction-failed;
the checksum is modelled from the spec because its body is absent from
the sources.  ExtractMessage itself replaces this error with
extraction-failed (see the counterexample). -/
theorem wrong_key_distinct (rq : ExtractRequest) (bits : List Nat)
    (totalBits em en : Nat)
    (hkey : rq.stegoKey ≠ [])
    (hlen : ¬ (rawOf bits).length < 17)
    (hmagic : (rawOf bits).take 8 = magicBytes)
    (hm : byteAt (rawOf bits) 8 = em) (hn2 : byteAt (rawOf bits) 9 = en)
    (henc : byteAt (rawOf bits) 10 &&& 1 ≠ 0)
    (hl1 : ¬ (rawOf bits).length < 8 + 1 + 1 + 1 + 2 + 4 + fnameLenOf (rawOf bits) + 2)
    (hl2 : ¬ (0 < fnameLenOf (rawOf bits) ∧
      (rawOf bits).length < 17 + fnameLenOf (rawOf bits) + 2))
    (hl3 : ¬ (rawOf bits).length < 17 + fnameLenOf (rawOf bits) + 2 +
      metaLenOf (rawOf bits) + secretLenOf (rawOf bits))
    (hbad : (vigenereCipher (candSecret (rawOf bits)) rq.stegoKey).take 4 ≠
      calculateChecksum ((vigenereCipher (candSecret (rawOf bits)) rq.stegoKey).drop 4)) :
    tryExtractFromBits rq bits totalBits em en = .error .invalidStegoKey ∧
    (StegoError.invalidStegoKey ≠ StegoError.extractionFailed) := by
  simp only [rawOf, fnameLenOf, secretLenOf, metaLenOf, candSecret]
    at hlen hmagic hm hn2 henc hl1 hl2 hl3 hbad
  have h0 : tryOneStart rq bits em en 0 = some (.error .invalidStegoKey) := by
    simp only [tryOneStart]
    rw [if_neg hlen]
    rw [if_neg (not_not_intro hmagic)]
    rw [if_neg (not_not_intro ⟨hm, hn2⟩)]
    rw [if_neg hl1]
    rw [if_neg hl2]
    rw [if_neg hl3]
    rw [if_pos henc]
    rw [if_neg hkey]
    by_cases hlen4 :
        (vigenereCipher (((bitsToBytes (rotateBits bits 0)).drop
          (17 + readBE16 (bitsToBytes (rotateBits bits 0)) 11 + 2 +
            readBE16 (bitsToBytes (rotateBits bits 0))
              (17 + readBE16 (bitsToBytes (rotateBits bits 0)) 11))).take
          (readBE32 (bitsToBytes (rotateBits bits 0)) 13)) rq.stegoKey).length < 4
    · rw [if_pos hlen4]
    · rw [if_neg hlen4, if_pos hbad]
  refine ⟨?_, by decide⟩
  unfold tryExtractFromBits tryStartsFor
  rw [if_pos hkey]
  simp only [List.cons_append, List.nil_append]
  simp only [tryStartsLoop, h0]

/-- Witness for the amended C4: a concrete obfuscated frame evaluated
with a key other than the embedding key yields the wrong-key error at
the candidate level. -/
theorem wrong_key_distinct_witness :
    tryExtractFromBits { stegoKey := [0x77], method := none } (bytesToBits frameC4)
      200 0 1 = .error .invalidStegoKey := by
  exact (wrong_key_distinct { stegoKey := [0x77], method := none } (bytesToBits frameC4)
    200 0 1 (by decide) (by decide) (by decide) (by decide) (by decide) (by decide)
    (by decide) (by decide) (by decide) (by decide)).1

/-! ## C10: the default filename -/

/-- C10: an empty secret filename is stored as secret.bin, whose
fname_len field is 10, and extraction (under the provable round-trip
conditions) returns secret.bin rather than the empty name; a non-empty
filename is stored unchanged. -/
theorem default_filename_spec (req : EmbedRequest) (hint : Option Method)
    (secret metadata out : List Nat)
    (hcover : Bytes req.coverAudio) (hsec : Bytes secret) (hmeta : Bytes metadata)
    (hfname : Bytes req.secretFileName) (hkeyB : Bytes req.stegoKey)
    (hsl : secret.length + 4 < 4294967296)
    (hcase : RoundTripCase req hint)
    (hok : embedMessage req secret metadata = .ok out) :
    (req.secretFileName = [] →
      effectiveName req.secretFileName = defaultName ∧
      defaultName.length = 10 ∧
      readBE16 (buildFrame req secret metadata) 11 = 10 ∧
      extractMessage { stegoKey := req.stegoKey, method := hint } out =
        .ok (secret, defaultName)) ∧
    (req.secretFileName ≠ [] →
      effectiveName req.secretFileName = req.secretFileName) := by
  obtain ⟨hfn, hml, _, _, _, _⟩ :=
    embedMessage_ok_facts req secret metadata out hcase.1 hok
  have hstl : (secretToStoreOf req secret).length < 4294967296 := by
    unfold secretToStoreOf
    split
    · rw [length_vigenereCipher, List.length_append, length_calculateChecksum]
      omega
    · omega
  constructor
  · intro hfe
    have hname : effectiveName req.secretFileName = defaultName := by
      unfold effectiveName
      rw [if_pos hfe]
    refine ⟨hname, rfl, ?_, ?_⟩
    · have hf := (frame_fields req secret metadata [] hfn hml hstl).2.2.2.2.1
      rw [List.append_nil] at hf
      rw [hf, hname]
      rfl
    · have h := roundtrip_main req hint secret metadata out hcover hsec hmeta hfname hkeyB
        hsl hcase hok
      rw [hname] at h
      exact h
  · intro hfe
    unfold effectiveName
    rw [if_neg hfe]

/-- Witness for C10: the concrete empty-filename embed over the
three-frame cover extracts back with the filename secret.bin. -/
theorem default_filename_spec_witness :
    embedMessage defNameReq [0xAB] [] = .ok stego96 ∧
    extractMessage { stegoKey := [], method := none } stego96 =
      .ok ([0xAB], defaultName) := by
  refine ⟨rfl, ?_⟩
  exact ((default_filename_spec defNameReq none [0xAB] [] stego96 (by decide) (by decide)
    (by decide) (by decide) (by decide) (by decide)
    ⟨rfl, Or.inl ⟨rfl, Or.inl rfl, Or.inl ⟨rfl, rfl⟩⟩⟩ rfl).1 rfl).2.2.2

end Stego
